import Mathlib

/-!
# Stock tally ledger: aggregation, mutation and query

A shallow embedding of `src/app.go` and `src/models/type.go`, and the properties of the
row aggregation (`ProcessExcelFile`), the stock mutation (`UpdateStock`), the queries
(`GetLowStockItems`, `SearchItemsAdvanced`) and the naming of ledger documents
(`saveProcessedData`).

Conventions of the embedding:

* Go `string` values are modelled by `String` (valid UTF-8 text; on such text the
  byte-wise `strings.Contains`, `strings.TrimSuffix`, `strings.HasSuffix` and
  `strings.Replace` agree with their character-wise counterparts used here).
* Go `int` is the 64-bit two's-complement integer; a value is an `Int` and the
  result of `+` is reduced with `wrapInt`.
* Go slices are lists; `nil` and empty slices are identified.
* Loops that append to a slice are left folds; loops that mutate one element in place
  and `break` are structural recursions that rebuild the list.
* A ledger document is identified with the `Company` value it decodes to; the
  file system is the explicit state `World`, with a journal of the completed writes.
* Standard-library functions are modelled after their documentation: `strconv.Atoi`,
  `strings.Fields` with `unicode.IsSpace`, `filepath.Ext`, `filepath.Clean` and
  `filepath.Join` (with `/` as separator). `unicode.ToLower` (a large table) is a parameter
  `lowerRune : Char → Char` of the search functions.
-/

namespace StockTally

/-! ## Data model (`src/models/type.go`) -/

/-- Item represents an item with its quantity and alternates. -/
structure Item where
  ItemNo : String
  Quantity : Int
  Alternates : List String
  deriving DecidableEq, Repr

/-- Finish represents a finish with its items. -/
structure Finish where
  Name : String
  Items : List Item
  deriving DecidableEq, Repr

/-- Company represents a company with its finishes and items. -/
structure Company where
  Name : String
  Finishes : List Finish
  deriving DecidableEq, Repr

/-- FileInfo represents information about a processed file. -/
structure FileInfo where
  Name : String
  Path : String
  OriginalPath : String
  LastUsed : String
  deriving DecidableEq, Repr

/-- SearchResult represents a single item found in search results. -/
structure SearchResult where
  Company : String
  Finish : String
  ItemNo : String
  Quantity : Int
  FilePath : String
  deriving DecidableEq, Repr

/-! ## Machine integers -/

/-- Smallest value of a Go `int` (64 bit). -/
def minInt : Int := -9223372036854775808

/-- Largest value of a Go `int` (64 bit). -/
def maxInt : Int := 9223372036854775807

/-- Two's-complement reduction of an integer to the range of a Go `int`. -/
def wrapInt (x : Int) : Int :=
  (x + 9223372036854775808) % 18446744073709551616 - 9223372036854775808

/-- A value representable as a Go `int`. -/
def inRange (x : Int) : Prop := minInt ≤ x ∧ x ≤ maxInt

instance (x : Int) : Decidable (inRange x) := by
  unfold inRange; exact inferInstance

/-! ## Errors returned by the operations -/

/-- The error values of `app.go`, one constructor per `fmt.Errorf` site used here. -/
inductive AppError where
  /-- `file contains no data rows` -/
  | noDataRows
  /-- `error reading company data: ...` -/
  | readCompanyData
  /-- `insufficient stock: cannot reduce below 0` -/
  | insufficientStock
  /-- `item not found` -/
  | itemNotFound
  /-- `error updating processed file: ...` -/
  | updateProcessedFile
  /-- `error updating original file: ...` -/
  | updateOriginalFile
  /-- `error accessing processed files directory: ...` -/
  | accessProcessedDir
  /-- `error reading processed files: ...` -/
  | readProcessedDir
  /-- `error getting processed files: ...` / `error getting files: ...` -/
  | getProcessedFiles
  /-- `no items found with stock less than %d` -/
  | noLowStock (criteria : Int)
  /-- `no items found matching '%s'` -/
  | noMatches (searchTerm : String)
  deriving DecidableEq, Repr

instance {ε α : Type} [DecidableEq ε] [DecidableEq α] : DecidableEq (Except ε α)
  | .ok a, .ok b =>
    if h : a = b then isTrue (by rw [h]) else isFalse (fun h2 => h (by injection h2))
  | .error a, .error b =>
    if h : a = b then isTrue (by rw [h]) else isFalse (fun h2 => h (by injection h2))
  | .ok _, .error _ => isFalse (fun h => by cases h)
  | .error _, .ok _ => isFalse (fun h => by cases h)

/-! ## String helpers from the Go standard library -/

/-- `strings.HasSuffix`. -/
def HasSuffix (s suffix : String) : Bool :=
  suffix.data.reverse.isPrefixOf s.data.reverse

/-- `strings.TrimSuffix`: `s` without the trailing `suffix`, or `s` itself. -/
def TrimSuffix (s suffix : String) : String :=
  if HasSuffix s suffix then String.mk (s.data.take (s.data.length - suffix.data.length)) else s

/-- Character-level `strings.Contains`: does `sub` occur in `l` as a contiguous block. -/
def containsChars : List Char → List Char → Bool
  | [], sub => sub.isEmpty
  | c :: cs, sub => sub.isPrefixOf (c :: cs) || containsChars cs sub

/-- `strings.Contains`. -/
def Contains (s substr : String) : Bool :=
  containsChars s.data substr.data

/-- `strings.ToLower`, over the rune map `lowerRune` standing for `unicode.ToLower`. -/
def ToLower (lowerRune : Char → Char) (s : String) : String :=
  String.mk (s.data.map lowerRune)

/-- The restriction of `unicode.ToLower` to ASCII: `A`..`Z` are shifted by `'a' - 'A'`, the
rest is kept. -/
def asciiLower (c : Char) : Char :=
  if 65 ≤ c.toNat ∧ c.toNat ≤ 90 then Char.ofNat (c.toNat + 32) else c

/-- `unicode.IsSpace`: the code points with the Unicode White_Space property. -/
def IsSpace (c : Char) : Bool :=
  let n := c.toNat
  (9 ≤ n && n ≤ 13) || n == 32 || n == 133 || n == 160 || n == 5760 ||
  (8192 ≤ n && n ≤ 8202) || n == 8232 || n == 8233 || n == 8239 || n == 8287 || n == 12288

/-- Loop of `strings.Fields`: `cur` is the field being read, in reverse. -/
def fieldsAux : List Char → List Char → List String
  | cur, [] => if cur.isEmpty then [] else [String.mk cur.reverse]
  | cur, c :: cs =>
    if IsSpace c then
      if cur.isEmpty then fieldsAux [] cs else String.mk cur.reverse :: fieldsAux [] cs
    else fieldsAux (c :: cur) cs

/-- `strings.Fields`: the maximal runs of non-space characters of `s`. -/
def Fields (s : String) : List String :=
  fieldsAux [] s.data

/-- Replace the first occurrence of `old` in `l` by `new` (character level). -/
def replaceFirstChars (old new : List Char) : List Char → List Char
  | [] => if old.isEmpty then new else []
  | c :: cs =>
    if old.isPrefixOf (c :: cs) then new ++ (c :: cs).drop old.length
    else c :: replaceFirstChars old new cs

/-- `strings.Replace(s, old, new, 1)`. -/
def ReplaceFirst (s old new : String) : String :=
  String.mk (replaceFirstChars old.data new.data s.data)

/-- Value of a decimal digit, if the character is one. -/
def digitVal (c : Char) : Option Nat :=
  if 48 ≤ c.toNat ∧ c.toNat ≤ 57 then some (c.toNat - 48) else none

/-- Decimal value of a string of digits read left to right from accumulator `acc`. -/
def parseDigits : Nat → List Char → Option Nat
  | acc, [] => some acc
  | acc, c :: cs =>
    match digitVal c with
    | none => none
    | some d => parseDigits (10 * acc + d) cs

/-- Unsigned part of `strconv.Atoi`: at least one character, all of them digits. -/
def parseUnsigned (cs : List Char) : Option Nat :=
  if cs.isEmpty then none else parseDigits 0 cs

/-- `strconv.Atoi`: optional sign, decimal digits, value within the range of `int`. -/
def Atoi (s : String) : Option Int :=
  match s.data with
  | '-' :: ds =>
    match parseUnsigned ds with
    | some n => if -(n : Int) < minInt then none else some (-(n : Int))
    | none => none
  | '+' :: ds =>
    match parseUnsigned ds with
    | some n => if maxInt < (n : Int) then none else some (n : Int)
    | none => none
  | ds =>
    match parseUnsigned ds with
    | some n => if maxInt < (n : Int) then none else some (n : Int)
    | none => none

/-- Loop of `filepath.Ext` over the reversed path: stop at a separator, cut at the last dot. -/
def extAux : List Char → List Char → List Char
  | [], _ => []
  | c :: cs, acc =>
    if c = '/' then [] else if c = '.' then '.' :: acc else extAux cs (c :: acc)

/-- `filepath.Ext`: the suffix from the last dot of the last path element, or empty. -/
def Ext (path : String) : String :=
  String.mk (extAux path.data.reverse [])

/-- The elements of a path between its separators (`/`); never the empty list. -/
def splitSlash : List Char → List (List Char)
  | [] => [[]]
  | c :: cs =>
    if c = '/' then [] :: splitSlash cs
    else
      match splitSlash cs with
      | [] => [[c]]
      | h :: t => (c :: h) :: t

/-- One step of `filepath.Clean` on the elements kept so far: empty and `.` elements are
dropped; `..` removes the element before it, is dropped at the root, and is kept
otherwise; any other element is kept. -/
def cleanStep (rooted : Bool) (kept : List (List Char)) (elem : List Char) :
    List (List Char) :=
  if elem = [] ∨ elem = ['.'] then kept
  else if elem = ['.', '.'] then
    match kept.getLast? with
    | some last => if last = ['.', '.'] then kept ++ [elem] else kept.dropLast
    | none => if rooted then kept else kept ++ [elem]
  else kept ++ [elem]

/-- The elements of a cleaned path, joined by single separators. -/
def joinElems : List (List Char) → List Char
  | [] => []
  | [e] => e
  | e :: f :: rest => e ++ '/' :: joinElems (f :: rest)

/-- The characters of `filepath.Clean` of a path. -/
def cleanChars (path : List Char) : List Char :=
  let rooted := path.head? == some '/'
  let out := (if rooted then ['/'] else []) ++
    joinElems ((splitSlash path).foldl (cleanStep rooted) [])
  if out.isEmpty then ['.'] else out

/-- `filepath.Clean`: the shortest equivalent path by lexical processing. -/
def Clean (path : String) : String :=
  String.mk (cleanChars path.data)

/-- `filepath.Join`: the elements from the first non-empty one on, joined by the separator,
then cleaned; the empty string when every element is empty. -/
def Join (elem : List String) : String :=
  match elem.dropWhile (fun e => e == "") with
  | [] => ""
  | rest => Clean ("/".intercalate rest)

/-! ## The file system as explicit state -/

/-- One entry of `os.ReadDir`: its name, whether it is a directory, and the formatted
modification time when `entry.Info()` succeeds. -/
structure DirEntry where
  Name : String
  IsDir : Bool
  Info : Option String
  deriving DecidableEq, Repr

/-- A cell written by `SetCellValue`: a string or an integer. -/
inductive Cell where
  | str (s : String)
  | num (n : Int)
  deriving DecidableEq, Repr

/-- The rows of `Sheet1` of a spreadsheet file. -/
abbrev Sheet := List (List Cell)

/-- A completed write to the file system. -/
inductive WriteEvent where
  | ledger (path : String) (company : Company)
  | mirror (path : String) (sheet : Sheet)
  deriving DecidableEq, Repr

/-- The state the operations run against.

* `dataDir`: the data root of the `Directory`;
* `mkdirOk`: whether `os.MkdirAll(processedDir)` succeeds;
* `readDir`: the result of `os.ReadDir(processedDir)`, `none` on error;
* `docs path`: the `Company` that `os.ReadFile` and `json.Unmarshal` yield at `path`,
  `none` when either fails;
* `sheets path`: the spreadsheet stored at `path`;
* `canWrite path`: whether a write to `path` succeeds (a failed write leaves the state as is);
* `journal`: the writes completed so far, oldest first. -/
structure World where
  dataDir : String
  mkdirOk : Bool
  readDir : Option (List DirEntry)
  docs : String → Option Company
  sheets : String → Option Sheet
  canWrite : String → Bool
  journal : List WriteEvent

/-! ## Ledger store (`Directory`) -/

/-- Body of the loop of `GetProcessedFiles` for one directory entry. -/
def addFileInfo (processedDir originalDir : String) (files : List FileInfo) (entry : DirEntry) :
    List FileInfo :=
  if !entry.IsDir && HasSuffix entry.Name ".json" then
    match entry.Info with
    | none => files
    | some modTime =>
      let originalFileName := TrimSuffix entry.Name ".json" ++ ".xlsx"
      let originalFilePath := Join [originalDir, originalFileName]
      files ++ [{ Name := TrimSuffix entry.Name ".json",
                  Path := Join [processedDir, entry.Name],
                  OriginalPath := originalFilePath,
                  LastUsed := modTime }]
  else files

/-- GetProcessedFiles returns a list of processed JSON files. -/
def GetProcessedFiles (w : World) : Except AppError (List FileInfo) :=
  let processedDir := Join [w.dataDir, "processed"]
  let originalDir := Join [w.dataDir, "files"]
  if !w.mkdirOk then .error .accessProcessedDir
  else
    match w.readDir with
    | none => .error .readProcessedDir
    | some entries => .ok (entries.foldl (addFileInfo processedDir originalDir) [])

/-- GetCompanyData retrieves the data for a specific company; `none` is the error return. -/
def GetCompanyData (w : World) (filePath : String) : Option Company :=
  w.docs filePath

/-- Name of the ledger document of one company of a batch: `fmt.Sprintf("%s_%s.json", ...)`
in `saveProcessedData`. -/
def jsonFileName (fileName companyName : String) : String :=
  fileName ++ "_" ++ companyName ++ ".json"

/-- The batch name of `saveProcessedData`: the uploaded file name without its extension. -/
def batchName (originalFileName : String) : String :=
  TrimSuffix originalFileName (Ext originalFileName)

/-- Path of the ledger document of one company of the batch `fileName`:
`filepath.Join(d.dataDir, "processed", jsonFileName)` in `saveProcessedData`. -/
def jsonPathOf (dataDir fileName companyName : String) : String :=
  Join [dataDir, "processed", jsonFileName fileName companyName]

/-- Path of the ledger document written by `saveProcessedData` for one company. -/
def jsonPath (w : World) (originalFileName companyName : String) : String :=
  jsonPathOf w.dataDir (batchName originalFileName) companyName

/-! ## Row aggregation (`ProcessExcelFile`, the loop over the rows) -/

/-- The Go `map[string]*models.Company`, as an association list with distinct keys. -/
abbrev CompanyMap := List (String × Company)

/-- Map lookup `companyMap[key]`. -/
def mapGet : CompanyMap → String → Option Company
  | [], _ => none
  | (k, v) :: rest, key => if k = key then some v else mapGet rest key

/-- Map assignment `companyMap[key] = v`. -/
def mapSet : CompanyMap → String → Company → CompanyMap
  | [], key, v => [(key, v)]
  | (k, v0) :: rest, key, v =>
    if k = key then (k, v) :: rest else (k, v0) :: mapSet rest key v

/-- Find or create the finish named `finishName` (first match by linear scan, else a new
finish appended at the end) and append `item` to its items. -/
def addItem : List Finish → String → Item → List Finish
  | [], finishName, item => [{ Name := finishName, Items := [item] }]
  | f :: rest, finishName, item =>
    if f.Name = finishName then { f with Items := f.Items ++ [item] } :: rest
    else f :: addItem rest finishName item

/-- Body of the row loop of `ProcessExcelFile` for one row: a short row or a row whose
quantity does not parse is skipped; otherwise the company is looked up (a missing one
starts with no finishes), the item is added to its finish, and the company is stored. -/
def addRow (companyMap : CompanyMap) (row : List String) : CompanyMap :=
  match row with
  | companyName :: finishName :: itemNo :: quantity :: _ =>
    match Atoi quantity with
    | none => companyMap
    | some qty =>
      let company := (mapGet companyMap companyName).getD { Name := companyName, Finishes := [] }
      mapSet companyMap companyName
        { company with
          Finishes := addItem company.Finishes finishName
            { ItemNo := itemNo, Quantity := qty, Alternates := [] } }
  | _ => companyMap

/-- The row loop of `ProcessExcelFile`: `for i := 1; i < len(rows); i++`. -/
def aggregateRows (rows : List (List String)) : CompanyMap :=
  (rows.drop 1).foldl addRow []

/-- The aggregation step of `ProcessExcelFile`: the guard on the number of rows, then the
row loop. -/
def aggregate (rows : List (List String)) : Except AppError CompanyMap :=
  if rows.length < 2 then .error .noDataRows else .ok (aggregateRows rows)

/-! ## Mutation (`UpdateStock`) -/

/-- Inner loop of `UpdateStock` over the items of the located finish; the flag is
`itemFound`. -/
def updateItems : List Item → String → Int → Except AppError (List Item × Bool)
  | [], _, _ => .ok ([], false)
  | item :: rest, itemNo, change =>
    if item.ItemNo = itemNo then
      let newQuantity := wrapInt (item.Quantity + change)
      if newQuantity < 0 then .error .insufficientStock
      else .ok ({ item with Quantity := newQuantity } :: rest, true)
    else
      match updateItems rest itemNo change with
      | .error e => .error e
      | .ok (items, found) => .ok (item :: items, found)

/-- Outer loop of `UpdateStock` over the finishes: only the first finish with the name is
searched. -/
def updateFinishes : List Finish → String → String → Int → Except AppError (List Finish × Bool)
  | [], _, _, _ => .ok ([], false)
  | finish :: rest, finishName, itemNo, change =>
    if finish.Name = finishName then
      match updateItems finish.Items itemNo change with
      | .error e => .error e
      | .ok (items, found) => .ok ({ finish with Items := items } :: rest, found)
    else
      match updateFinishes rest finishName itemNo change with
      | .error e => .error e
      | .ok (finishes, found) => .ok (finish :: finishes, found)

/-- updateProcessedFile updates the processed JSON file. -/
def updateProcessedFile (w : World) (filePath : String) (company : Company) :
    Except AppError Unit × World :=
  if w.canWrite filePath then
    (.ok (), { w with
      docs := fun p => if p = filePath then some company else w.docs p,
      journal := w.journal ++ [.ledger filePath company] })
  else (.error .updateProcessedFile, w)

/-- The sheet built by `updateOriginalFile`: the header row, then one row per item. -/
def companySheet (company : Company) : Sheet :=
  [.str "Company", .str "Finish", .str "Item No", .str "Quantity"] ::
    company.Finishes.foldl (fun rows finish =>
      finish.Items.foldl (fun rows item =>
        rows ++ [[.str company.Name, .str finish.Name, .str item.ItemNo, .num item.Quantity]])
        rows) []

/-- The path of the mirror file derived from the path of the ledger document. -/
def originalPathOf (jsonPath : String) : String :=
  ReplaceFirst (TrimSuffix jsonPath ".json" ++ ".xlsx") "processed" "files"

/-- updateOriginalFile updates the original Excel file. -/
def updateOriginalFile (w : World) (company : Company) (jsonPath : String) :
    Except AppError Unit × World :=
  let originalPath := originalPathOf jsonPath
  if w.canWrite originalPath then
    (.ok (), { w with
      sheets := fun p => if p = originalPath then some (companySheet company) else w.sheets p,
      journal := w.journal ++ [.mirror originalPath (companySheet company)] })
  else (.error .updateOriginalFile, w)

/-- UpdateStock updates the stock quantity for a specific item. -/
def UpdateStock (w : World) (filePath finishName itemNo : String) (change : Int) :
    Except AppError Unit × World :=
  match GetCompanyData w filePath with
  | none => (.error .readCompanyData, w)
  | some company =>
    match updateFinishes company.Finishes finishName itemNo change with
    | .error e => (.error e, w)
    | .ok (finishes, itemFound) =>
      if !itemFound then (.error .itemNotFound, w)
      else
        let company := { company with Finishes := finishes }
        match updateProcessedFile w filePath company with
        | (.error e, w1) => (.error e, w1)
        | (.ok (), w1) =>
          match updateOriginalFile w1 company filePath with
          | (.error e, w2) => (.error e, w2)
          | (.ok (), w2) => (.ok (), w2)

/-! ## Queries -/

/-- Body of the loop of `SearchItemsAdvanced` over the finishes of one company. -/
def searchFinish (lowerRune : Char → Char) (searchTerm : String) (parts : List String)
    (company : Company) (path : String) (results : List SearchResult) (finish : Finish) :
    List SearchResult :=
  match parts with
  | p0 :: p1 :: _ =>
    let finishMatches := Contains (ToLower lowerRune finish.Name) (ToLower lowerRune p0)
    finish.Items.foldl (fun acc item =>
      let itemMatches := Contains (ToLower lowerRune item.ItemNo) (ToLower lowerRune p1)
      if finishMatches && itemMatches then
        acc ++ [{ Company := company.Name, Finish := finish.Name, ItemNo := item.ItemNo,
                  Quantity := item.Quantity, FilePath := path }]
      else acc) results
  | _ =>
    let searchLower := ToLower lowerRune searchTerm
    let finishMatches := Contains (ToLower lowerRune finish.Name) searchLower
    finish.Items.foldl (fun acc item =>
      let itemMatches := Contains (ToLower lowerRune item.ItemNo) searchLower
      if finishMatches || itemMatches then
        acc ++ [{ Company := company.Name, Finish := finish.Name, ItemNo := item.ItemNo,
                  Quantity := item.Quantity, FilePath := path }]
      else acc) results

/-- Body of the loop of `SearchItemsAdvanced` over the files. -/
def searchFile (lowerRune : Char → Char) (w : World) (searchTerm : String)
    (parts : List String) (results : List SearchResult) (file : FileInfo) :
    List SearchResult :=
  match GetCompanyData w file.Path with
  | none => results
  | some company =>
    company.Finishes.foldl (searchFinish lowerRune searchTerm parts company file.Path) results

/-- SearchItemsAdvanced searches for items based on search criteria. -/
def SearchItemsAdvanced (lowerRune : Char → Char) (w : World) (searchTerm : String) :
    Except AppError (List SearchResult) :=
  let parts := Fields searchTerm
  match GetProcessedFiles w with
  | .error _ => .error .getProcessedFiles
  | .ok files =>
    let results := files.foldl (searchFile lowerRune w searchTerm parts) []
    if results.length = 0 then .error (.noMatches searchTerm) else .ok results

/-! ## The Acme example -/

/-- The header row of the example sheet. -/
def headerRow : List String := ["Company", "Finish", "Item No", "Quantity"]

/-- The data rows of the Acme example. -/
def acmeDataRows : List (List String) :=
  [["Acme", "Matte", "I-100", "10"], ["Acme", "Matte", "I-101", "5"],
   ["Acme", "Gloss", "I-200", "3"]]

/-- The row sequence of the Acme example. -/
def acmeRows : List (List String) := headerRow :: acmeDataRows

/-- A row with a non-numeric quantity. -/
def malformedRow : List String := ["Acme", "Matte", "I-102", "abc"]

/-- The Acme company: Matte (I-100 qty 10, I-101 qty 5), then Gloss (I-200 qty 3). -/
def acmeCompany : Company :=
  { Name := "Acme",
    Finishes :=
      [{ Name := "Matte",
         Items := [{ ItemNo := "I-100", Quantity := 10, Alternates := [] },
                   { ItemNo := "I-101", Quantity := 5, Alternates := [] }] },
       { Name := "Gloss",
         Items := [{ ItemNo := "I-200", Quantity := 3, Alternates := [] }] }] }

/-- A world holding one ledger document, named `entryName` and listed in the processed
directory, with company `c`; every write succeeds. -/
def singleDocWorld (entryName : String) (c : Company) : World :=
  { dataDir := "./data",
    mkdirOk := true,
    readDir := some [{ Name := entryName, IsDir := false, Info := some "2024-01-01T00:00:00Z" }],
    docs := fun p =>
      if p = Join [Join ["./data", "processed"], entryName] then some c else none,
    sheets := fun _ => none,
    canWrite := fun _ => true,
    journal := [] }

/-- Path of the Acme ledger document. -/
def acmePath : String := "data/processed/stock_Acme.json"

/-- The world holding only the Acme ledger document. -/
def acmeWorld : World := singleDocWorld "stock_Acme.json" acmeCompany

/-- A ledger document whose only item has quantity `-1` (as ingested from a row with
quantity text `-1`). -/
def debtCompany : Company :=
  { Name := "Acme",
    Finishes := [{ Name := "Matte",
                   Items := [{ ItemNo := "I-100", Quantity := -1, Alternates := [] }] }] }

/-- A sheet whose only data row carries the quantity text `-5`. -/
def negativeRows : List (List String) :=
  [headerRow, ["Acme", "Matte", "I-100", "-5"]]

/-! ## Definitions used in the statements -/

/-- Every item of the company has a non-negative quantity. -/
def Company.NonNeg (c : Company) : Prop :=
  ∀ f ∈ c.Finishes, ∀ x ∈ f.Items, 0 ≤ x.Quantity

/-- The quantity a row contributes: the parsed fourth field of a row with at least four
fields, `none` for a row that is skipped. -/
def rowQuantity (row : List String) : Option Int :=
  if row.length < 4 then none else (row.get? 3).bind Atoi

/-- The company `c` with finishes `pre ++ f :: post`, where the item `it` of
`f.Items = ipre ++ it :: ipost` has its quantity replaced by `q` and nothing else changes. -/
def replaceQuantity (c : Company) (pre post : List Finish) (f : Finish)
    (ipre ipost : List Item) (it : Item) (q : Int) : Company :=
  { Name := c.Name,
    Finishes := pre ++ { Name := f.Name,
                         Items := ipre ++ { ItemNo := it.ItemNo, Quantity := q,
                                            Alternates := it.Alternates } :: ipost } :: post }

/-- Two runes are equal up to case: they have the same lower-case form. -/
def EqUpToCase (lowerRune : Char → Char) (a b : Char) : Prop :=
  lowerRune a = lowerRune b

/-- The token `t` is a case-insensitive substring of `s`: some contiguous block of `s` has
the length of `t` and agrees with `t`, character by character, up to case. -/
def IsCISubstring (lowerRune : Char → Char) (t s : String) : Prop :=
  ∃ pre mid post : List Char,
    s.data = pre ++ mid ++ post ∧ List.Forall₂ (EqUpToCase lowerRune) t.data mid

/-- A rune map that lower-cases the ASCII capitals and leaves the other ASCII characters
alone, as `unicode.ToLower` does. -/
def LowersAscii (lowerRune : Char → Char) : Prop :=
  ∀ c : Char, c.toNat < 128 → lowerRune c = asciiLower c

/-- A data row that is accepted: company, finish, item number and parsed quantity. -/
structure Record where
  company : String
  finish : String
  itemNo : String
  quantity : Int
  deriving DecidableEq, Repr

/-- The record of a valid row (at least four fields, integer quantity); `none` otherwise. -/
def parseRow (row : List String) : Option Record :=
  match row with
  | company :: finish :: itemNo :: quantity :: _ =>
    (Atoi quantity).map (fun n => ⟨company, finish, itemNo, n⟩)
  | _ => none

/-- A row is valid when it has at least four fields and its fourth field is an integer. -/
def validRow (row : List String) : Bool :=
  (rowQuantity row).isSome

/-- The records of the valid data rows, in row order; the first row is the header. -/
def validRecords (rows : List (List String)) : List Record :=
  (rows.drop 1).filterMap parseRow

/-- The row sequence without its malformed data rows; the header row is kept. -/
def cleanRows (rows : List (List String)) : List (List String) :=
  rows.take 1 ++ (rows.drop 1).filter validRow

/-- The distinct elements of a list, in order of first appearance. -/
def firstAppearances : List String → List String
  | [] => []
  | x :: xs => x :: (firstAppearances xs).filter (fun y => decide (y ≠ x))

/-- The item a record stands for: its item number and quantity, no alternates. -/
def Record.toItem (r : Record) : Item :=
  { ItemNo := r.itemNo, Quantity := r.quantity, Alternates := [] }

/-- The items of finish `f` of company `c`: one per record with that company and finish,
in row order. -/
def itemsOf (recs : List Record) (c f : String) : List Item :=
  (recs.filter (fun r => decide (r.company = c ∧ r.finish = f))).map Record.toItem

/-- The finish names of company `c`, in order of first appearance among its records. -/
def finishNamesOf (recs : List Record) (c : String) : List String :=
  firstAppearances ((recs.filter (fun r => decide (r.company = c))).map Record.finish)

/-- The finishes of company `c`. -/
def finishesOf (recs : List Record) (c : String) : List Finish :=
  (finishNamesOf recs c).map (fun f => { Name := f, Items := itemsOf recs c f })

/-- The company names, in order of first appearance among the records. -/
def companyNamesOf (recs : List Record) : List String :=
  firstAppearances (recs.map Record.company)

/-- The grouping of the records by company and finish. -/
def expectedMap (recs : List Record) : CompanyMap :=
  (companyNamesOf recs).map (fun c => (c, { Name := c, Finishes := finishesOf recs c }))

/-- The effect of one accepted row on the company map. -/
def addRecord (companyMap : CompanyMap) (r : Record) : CompanyMap :=
  let company := (mapGet companyMap r.company).getD { Name := r.company, Finishes := [] }
  mapSet companyMap r.company
    { company with Finishes := addItem company.Finishes r.finish r.toItem }

/-! ## Lemmas on machine integers -/

theorem wrapInt_of_inRange (x : Int) (h : inRange x) : wrapInt x = x := by
  unfold inRange minInt maxInt at h
  unfold wrapInt
  omega

theorem wrapInt_neg_of_overflow (x : Int) (h1 : maxInt < x) (h2 : x ≤ 2 * maxInt) :
    wrapInt x < 0 := by
  unfold maxInt at h1 h2
  unfold wrapInt
  omega

/-! ## Lemmas on the loops of `UpdateStock` -/

theorem updateItems_split (ipre ipost : List Item) (it : Item) (itemNo : String) (change : Int)
    (hipre : ∀ x ∈ ipre, x.ItemNo ≠ itemNo) (hit : it.ItemNo = itemNo) :
    updateItems (ipre ++ it :: ipost) itemNo change =
      if wrapInt (it.Quantity + change) < 0 then .error .insufficientStock
      else .ok (ipre ++ { it with Quantity := wrapInt (it.Quantity + change) } :: ipost, true) := by
  induction ipre with
  | nil => simp [updateItems, hit]
  | cons x xs ih =>
    have hx : x.ItemNo ≠ itemNo := hipre x (by simp)
    have h2 := ih (fun y hy => hipre y (by simp [hy]))
    rw [List.cons_append, updateItems, if_neg hx, h2]
    split_ifs <;> rfl

theorem updateItems_absent (items : List Item) (itemNo : String) (change : Int)
    (h : ∀ x ∈ items, x.ItemNo ≠ itemNo) :
    updateItems items itemNo change = .ok (items, false) := by
  induction items with
  | nil => rfl
  | cons x xs ih =>
    have hx : x.ItemNo ≠ itemNo := h x (by simp)
    have h2 := ih (fun y hy => h y (by simp [hy]))
    simp [updateItems, hx, h2]

theorem updateFinishes_split (pre post : List Finish) (f : Finish) (finishName itemNo : String)
    (change : Int) (hpre : ∀ g ∈ pre, g.Name ≠ finishName) (hf : f.Name = finishName) :
    updateFinishes (pre ++ f :: post) finishName itemNo change =
      match updateItems f.Items itemNo change with
      | .error e => .error e
      | .ok (items, found) => .ok (pre ++ { f with Items := items } :: post, found) := by
  induction pre with
  | nil => simp [updateFinishes, hf]
  | cons x xs ih =>
    have hx : x.Name ≠ finishName := hpre x (by simp)
    have h2 := ih (fun y hy => hpre y (by simp [hy]))
    rw [List.cons_append, updateFinishes, if_neg hx, h2]
    cases updateItems f.Items itemNo change with
    | error e => rfl
    | ok r => rfl

theorem updateFinishes_absent (finishes : List Finish) (finishName itemNo : String) (change : Int)
    (h : ∀ g ∈ finishes, g.Name ≠ finishName) :
    updateFinishes finishes finishName itemNo change = .ok (finishes, false) := by
  induction finishes with
  | nil => rfl
  | cons x xs ih =>
    have hx : x.Name ≠ finishName := h x (by simp)
    have h2 := ih (fun y hy => h y (by simp [hy]))
    simp [updateFinishes, hx, h2]

/-! ## `UpdateStock` -/

/-- The run of `UpdateStock` once the item is located: the guard, then the two writes. -/
theorem UpdateStock_located (w : World) (filePath finishName itemNo : String) (change : Int)
    (c : Company) (pre post : List Finish) (f : Finish) (ipre ipost : List Item) (it : Item)
    (hload : GetCompanyData w filePath = some c)
    (hfin : c.Finishes = pre ++ f :: post) (hpre : ∀ g ∈ pre, g.Name ≠ finishName)
    (hf : f.Name = finishName)
    (hitems : f.Items = ipre ++ it :: ipost) (hipre : ∀ x ∈ ipre, x.ItemNo ≠ itemNo)
    (hit : it.ItemNo = itemNo) :
    UpdateStock w filePath finishName itemNo change =
      if wrapInt (it.Quantity + change) < 0 then (.error .insufficientStock, w)
      else
        let c' : Company :=
          { Name := c.Name,
            Finishes := pre ++ { Name := f.Name,
                                 Items := ipre ++ { ItemNo := it.ItemNo,
                                                    Quantity := wrapInt (it.Quantity + change),
                                                    Alternates := it.Alternates } :: ipost } :: post }
        match updateProcessedFile w filePath c' with
        | (.error e, w1) => (.error e, w1)
        | (.ok (), w1) =>
          match updateOriginalFile w1 c' filePath with
          | (.error e, w2) => (.error e, w2)
          | (.ok (), w2) => (.ok (), w2) := by
  unfold UpdateStock
  rw [hload]
  simp only
  rw [hfin, updateFinishes_split pre post f finishName itemNo change hpre hf, hitems,
    updateItems_split ipre ipost it itemNo change hipre hit]
  split_ifs with h
  · rfl
  · rfl


/-- C1 (counterexample). The document holds `I-100` with quantity `-1` in its first finish
`Matte`; with `change = minInt` the exact sum `-1 + minInt` is negative, yet the 64-bit sum
wraps to `maxInt`, `UpdateStock` succeeds and writes both files. -/
theorem UpdateStock_underflow_is_accepted :
    GetCompanyData (singleDocWorld "stock_Acme.json" debtCompany) acmePath = some debtCompany ∧
    inRange (-1) ∧ inRange minInt ∧ (-1 : Int) + minInt < 0 ∧
    (UpdateStock (singleDocWorld "stock_Acme.json" debtCompany) acmePath "Matte" "I-100"
        minInt).1 = .ok () ∧
    GetCompanyData
      (UpdateStock (singleDocWorld "stock_Acme.json" debtCompany) acmePath "Matte" "I-100"
        minInt).2 acmePath =
      some { Name := "Acme",
             Finishes := [{ Name := "Matte",
                            Items := [{ ItemNo := "I-100", Quantity := maxInt,
                                        Alternates := [] }] }] } ∧
    (UpdateStock (singleDocWorld "stock_Acme.json" debtCompany) acmePath "Matte" "I-100"
        minInt).2.journal.length = 2 := by
  decide

/-- C1 (amended). If the first finish named `finishName` holds an item `itemNo` whose first
such item has quantity `q` with `minInt ≤ q + change < 0` (a negative sum that does not
underflow 64 bits), `UpdateStock` returns the insufficient-stock error and the world, with
its documents, mirror files and write journal, is the one before the call. -/
theorem UpdateStock_rejects_negative (w : World) (filePath finishName itemNo : String)
    (change : Int) (c : Company) (pre post : List Finish) (f : Finish)
    (ipre ipost : List Item) (it : Item)
    (hload : GetCompanyData w filePath = some c)
    (hfin : c.Finishes = pre ++ f :: post) (hpre : ∀ g ∈ pre, g.Name ≠ finishName)
    (hf : f.Name = finishName)
    (hitems : f.Items = ipre ++ it :: ipost) (hipre : ∀ x ∈ ipre, x.ItemNo ≠ itemNo)
    (hit : it.ItemNo = itemNo)
    (hneg : it.Quantity + change < 0) (hlo : minInt ≤ it.Quantity + change) :
    (UpdateStock w filePath finishName itemNo change).1 = .error .insufficientStock ∧
    (UpdateStock w filePath finishName itemNo change).2 = w ∧
    (UpdateStock w filePath finishName itemNo change).2.journal = w.journal ∧
    GetCompanyData (UpdateStock w filePath finishName itemNo change).2 filePath = some c := by
  have hw : wrapInt (it.Quantity + change) < 0 := by
    rw [wrapInt_of_inRange _ ⟨hlo, by unfold maxInt; omega⟩]; exact hneg
  rw [UpdateStock_located w filePath finishName itemNo change c pre post f ipre ipost it
    hload hfin hpre hf hitems hipre hit, if_pos hw]
  exact ⟨rfl, rfl, rfl, hload⟩

/-- C1 (witness): reducing `I-100` (quantity 10) of the Acme document by 11. -/
theorem UpdateStock_rejects_negative_witness :
    (UpdateStock acmeWorld acmePath "Matte" "I-100" (-11)).1 = .error .insufficientStock ∧
    (UpdateStock acmeWorld acmePath "Matte" "I-100" (-11)).2 = acmeWorld ∧
    (UpdateStock acmeWorld acmePath "Matte" "I-100" (-11)).2.journal = acmeWorld.journal ∧
    GetCompanyData (UpdateStock acmeWorld acmePath "Matte" "I-100" (-11)).2 acmePath =
      some acmeCompany :=
  UpdateStock_rejects_negative acmeWorld acmePath "Matte" "I-100" (-11) acmeCompany
    [] [{ Name := "Gloss", Items := [{ ItemNo := "I-200", Quantity := 3, Alternates := [] }] }]
    { Name := "Matte",
      Items := [{ ItemNo := "I-100", Quantity := 10, Alternates := [] },
                { ItemNo := "I-101", Quantity := 5, Alternates := [] }] }
    [] [{ ItemNo := "I-101", Quantity := 5, Alternates := [] }]
    { ItemNo := "I-100", Quantity := 10, Alternates := [] }
    (by decide) (by decide) (by simp) (by decide) (by decide) (by simp) (by decide)
    (by decide) (by decide)

/-- C2. If the first finish named `finishName` holds an item `itemNo` whose first such item
has quantity `q` with `q + change ≥ 0` (`q` and `change` being Go `int` values), then
`UpdateStock` succeeds exactly when the sum fits in an `int` and both writes go through; when
it succeeds, the company written to `filePath` (and stored there afterwards) is the loaded
company with that one quantity replaced by `q + change`, everything else being unchanged;
and no other ledger document is ever written by the call. -/
theorem UpdateStock_changes_one_quantity (w : World) (filePath finishName itemNo : String)
    (change : Int) (c : Company) (pre post : List Finish) (f : Finish)
    (ipre ipost : List Item) (it : Item)
    (hload : GetCompanyData w filePath = some c)
    (hfin : c.Finishes = pre ++ f :: post) (hpre : ∀ g ∈ pre, g.Name ≠ finishName)
    (hf : f.Name = finishName)
    (hitems : f.Items = ipre ++ it :: ipost) (hipre : ∀ x ∈ ipre, x.ItemNo ≠ itemNo)
    (hit : it.ItemNo = itemNo)
    (hq : inRange it.Quantity) (hc : inRange change) (hnn : 0 ≤ it.Quantity + change) :
    ((UpdateStock w filePath finishName itemNo change).1 = .ok () ↔
      (it.Quantity + change ≤ maxInt ∧ w.canWrite filePath = true ∧
        w.canWrite (originalPathOf filePath) = true)) ∧
    ((UpdateStock w filePath finishName itemNo change).1 = .ok () →
      (UpdateStock w filePath finishName itemNo change).2.journal =
        w.journal ++
          [.ledger filePath
              (replaceQuantity c pre post f ipre ipost it (it.Quantity + change)),
           .mirror (originalPathOf filePath)
              (companySheet
                (replaceQuantity c pre post f ipre ipost it (it.Quantity + change)))] ∧
      GetCompanyData (UpdateStock w filePath finishName itemNo change).2 filePath =
        some (replaceQuantity c pre post f ipre ipost it (it.Quantity + change))) ∧
    (∀ p x, WriteEvent.ledger p x ∈ (UpdateStock w filePath finishName itemNo change).2.journal →
      WriteEvent.ledger p x ∈ w.journal ∨
        (p = filePath ∧
          x = replaceQuantity c pre post f ipre ipost it (it.Quantity + change))) := by
  rw [UpdateStock_located w filePath finishName itemNo change c pre post f ipre ipost it
    hload hfin hpre hf hitems hipre hit]
  by_cases hmax : it.Quantity + change ≤ maxInt
  · have hw : wrapInt (it.Quantity + change) = it.Quantity + change :=
      wrapInt_of_inRange _ ⟨by unfold minInt; omega, hmax⟩
    have hnot : ¬ wrapInt (it.Quantity + change) < 0 := by rw [hw]; omega
    rw [if_neg hnot, hw]
    by_cases h1 : w.canWrite filePath = true
    · by_cases h2 : w.canWrite (originalPathOf filePath) = true
      · simp [updateProcessedFile, updateOriginalFile, h1, h2, hmax, replaceQuantity,
          GetCompanyData]
      · simp [updateProcessedFile, updateOriginalFile, h1, h2, replaceQuantity]
    · simp [updateProcessedFile, h1]
      exact fun p x h => Or.inl h
  · have hw : wrapInt (it.Quantity + change) < 0 := by
      apply wrapInt_neg_of_overflow
      · omega
      · unfold inRange minInt maxInt at hq hc
        unfold maxInt
        omega
    rw [if_pos hw]
    simp [hmax]
    exact fun p x h => Or.inl h

/-- C2 (witness): taking 3 off `I-100` (quantity 10) of the Acme document. -/
theorem UpdateStock_changes_one_quantity_witness :
    (UpdateStock acmeWorld acmePath "Matte" "I-100" (-3)).1 = .ok () ∧
    GetCompanyData (UpdateStock acmeWorld acmePath "Matte" "I-100" (-3)).2 acmePath =
      some { Name := "Acme",
             Finishes :=
               [{ Name := "Matte",
                  Items := [{ ItemNo := "I-100", Quantity := 7, Alternates := [] },
                            { ItemNo := "I-101", Quantity := 5, Alternates := [] }] },
                { Name := "Gloss",
                  Items := [{ ItemNo := "I-200", Quantity := 3, Alternates := [] }] }] } :=
  have h := UpdateStock_changes_one_quantity acmeWorld acmePath "Matte" "I-100" (-3) acmeCompany
    [] [{ Name := "Gloss", Items := [{ ItemNo := "I-200", Quantity := 3, Alternates := [] }] }]
    { Name := "Matte",
      Items := [{ ItemNo := "I-100", Quantity := 10, Alternates := [] },
                { ItemNo := "I-101", Quantity := 5, Alternates := [] }] }
    [] [{ ItemNo := "I-101", Quantity := 5, Alternates := [] }]
    { ItemNo := "I-100", Quantity := 10, Alternates := [] }
    (by decide) (by decide) (by simp) (by decide) (by decide) (by simp) (by decide)
    (by decide) (by decide) (by decide)
  have hok := h.1.2 ⟨by decide, by decide, by decide⟩
  ⟨hok, (h.2.1 hok).2⟩

/-- The first element satisfying a predicate splits the list around it. -/
theorem exists_first_split {α : Type} (p : α → Prop) [DecidablePred p] (l : List α)
    (h : ∃ x ∈ l, p x) :
    ∃ pre x post, l = pre ++ x :: post ∧ (∀ y ∈ pre, ¬ p y) ∧ p x := by
  induction l with
  | nil => simp at h
  | cons a t ih =>
    by_cases ha : p a
    · exact ⟨[], a, t, rfl, by simp, ha⟩
    · have ht : ∃ x ∈ t, p x := by
        obtain ⟨x, hx, hpx⟩ := h
        rcases List.mem_cons.1 hx with rfl | hx
        · exact absurd hpx ha
        · exact ⟨x, hx, hpx⟩
      obtain ⟨pre, x, post, hl, hpre, hx⟩ := ih ht
      refine ⟨a :: pre, x, post, by rw [hl]; rfl, ?_, hx⟩
      intro y hy
      rcases List.mem_cons.1 hy with rfl | hy
      · exact ha
      · exact hpre y hy

/-- The not-found outcomes of `UpdateStock` in terms of the first finish with the name. -/
theorem UpdateStock_not_found_first (w : World) (filePath finishName itemNo : String)
    (change : Int) (c : Company) (hload : GetCompanyData w filePath = some c) :
    ((∀ g ∈ c.Finishes, g.Name ≠ finishName) →
      UpdateStock w filePath finishName itemNo change = (.error .itemNotFound, w)) ∧
    (∀ pre f post, c.Finishes = pre ++ f :: post → (∀ g ∈ pre, g.Name ≠ finishName) →
      f.Name = finishName → (∀ x ∈ f.Items, x.ItemNo ≠ itemNo) →
      UpdateStock w filePath finishName itemNo change = (.error .itemNotFound, w)) ∧
    (∀ pre f post, c.Finishes = pre ++ f :: post → (∀ g ∈ pre, g.Name ≠ finishName) →
      f.Name = finishName → (∃ x ∈ f.Items, x.ItemNo = itemNo) →
      (UpdateStock w filePath finishName itemNo change).1 ≠ .error .itemNotFound) := by
  refine ⟨?_, ?_, ?_⟩
  · intro h
    unfold UpdateStock
    rw [hload]
    simp only
    rw [updateFinishes_absent _ _ _ _ h]
    rfl
  · intro pre f post hfin hpre hf hitems
    unfold UpdateStock
    rw [hload]
    simp only
    rw [hfin, updateFinishes_split pre post f finishName itemNo change hpre hf,
      updateItems_absent _ _ _ hitems]
    rfl
  · intro pre f post hfin hpre hf hex
    obtain ⟨ipre, it, ipost, hitems, hipre, hit⟩ :=
      exists_first_split (fun x : Item => x.ItemNo = itemNo) f.Items hex
    rw [UpdateStock_located w filePath finishName itemNo change c pre post f ipre ipost it
      hload hfin hpre hf hitems hipre hit]
    split_ifs with hneg
    · simp
    · by_cases h1 : w.canWrite filePath = true
      · by_cases h2 : w.canWrite (originalPathOf filePath) = true
        · simp [updateProcessedFile, updateOriginalFile, h1, h2]
        · simp [updateProcessedFile, updateOriginalFile, h1, h2]
      · simp [updateProcessedFile, h1]

/-- With distinct finish names, no finish before `f` has the name of `f`. -/
theorem names_before_ne (pre post : List Finish) (f : Finish)
    (h : ((pre ++ f :: post).map Finish.Name).Nodup) : ∀ g ∈ pre, g.Name ≠ f.Name := by
  intro g hg heq
  rw [List.map_append, List.nodup_append] at h
  exact h.2.2 (List.mem_map.2 ⟨g, hg, heq⟩) (by simp)

/-- The loops of `UpdateStock` change no finish name. -/
theorem updateFinishes_names (finishes finishes' : List Finish) (finishName itemNo : String)
    (change : Int) (found : Bool)
    (h : updateFinishes finishes finishName itemNo change = .ok (finishes', found)) :
    finishes'.map Finish.Name = finishes.map Finish.Name := by
  induction finishes generalizing finishes' found with
  | nil =>
    simp [updateFinishes] at h
    rw [h.1]
  | cons a t ih =>
    rw [updateFinishes] at h
    by_cases ha : a.Name = finishName
    · rw [if_pos ha] at h
      cases hrec : updateItems a.Items itemNo change with
      | error e => rw [hrec] at h; simp at h
      | ok r =>
        obtain ⟨r1, r2⟩ := r
        rw [hrec] at h
        simp at h
        rw [← h.1]
        rfl
    · rw [if_neg ha] at h
      cases hrec : updateFinishes t finishName itemNo change with
      | error e => rw [hrec] at h; simp at h
      | ok r =>
        obtain ⟨r1, r2⟩ := r
        rw [hrec] at h
        simp at h
        rw [← h.1, List.map_cons, List.map_cons, ih r1 r2 hrec]

/-- Every ledger document written by `UpdateStock` has the finish names of the loaded
document, in the same order: distinct finish names stay distinct. -/
theorem UpdateStock_keeps_finish_names (w : World) (filePath finishName itemNo : String)
    (change : Int) (c : Company) (hload : GetCompanyData w filePath = some c) :
    ∀ p x, WriteEvent.ledger p x ∈ (UpdateStock w filePath finishName itemNo change).2.journal →
      WriteEvent.ledger p x ∈ w.journal ∨
        x.Finishes.map Finish.Name = c.Finishes.map Finish.Name := by
  unfold UpdateStock
  rw [hload]
  simp only
  cases hrec : updateFinishes c.Finishes finishName itemNo change with
  | error e => exact fun p x h => Or.inl h
  | ok r =>
    obtain ⟨fs, found⟩ := r
    have hfs := updateFinishes_names c.Finishes fs finishName itemNo change found hrec
    cases found with
    | false => exact fun p x h => Or.inl h
    | true =>
      by_cases h1 : w.canWrite filePath = true
      · by_cases h2 : w.canWrite (originalPathOf filePath) = true
        · simp only [updateProcessedFile, updateOriginalFile, h1, h2, if_true]
          intro p x hx
          simp at hx
          rcases hx with hx | hx
          · exact Or.inl hx
          · right; rw [hx.2]; exact hfs
        · simp only [updateProcessedFile, updateOriginalFile, h1, h2, if_true]
          intro p x hx
          simp at hx
          rcases hx with hx | hx
          · exact Or.inl hx
          · right; rw [hx.2]; exact hfs
      · simp only [updateProcessedFile, h1]
        exact fun p x h => Or.inl h

/-- C9. For a document whose finishes have distinct names (the data model's identity key;
ingestion produces such documents, `aggregateRows_finish_names_nodup`, and `UpdateStock`
keeps the names, `UpdateStock_keeps_finish_names`): `UpdateStock` returns the not-found
error, leaving the world (documents, mirror files, write journal) as it was, when no finish
is named `finishName` or when the finish of that name has no item `itemNo`; and it does not
return the not-found error when a finish named `finishName` holds an item `itemNo`. -/
theorem UpdateStock_not_found (w : World) (filePath finishName itemNo : String)
    (change : Int) (c : Company) (hload : GetCompanyData w filePath = some c)
    (hnodup : (c.Finishes.map Finish.Name).Nodup) :
    ((∀ g ∈ c.Finishes, g.Name ≠ finishName) →
      UpdateStock w filePath finishName itemNo change = (.error .itemNotFound, w)) ∧
    (∀ f ∈ c.Finishes, f.Name = finishName → (∀ x ∈ f.Items, x.ItemNo ≠ itemNo) →
      UpdateStock w filePath finishName itemNo change = (.error .itemNotFound, w)) ∧
    (∀ f ∈ c.Finishes, f.Name = finishName → (∃ x ∈ f.Items, x.ItemNo = itemNo) →
      (UpdateStock w filePath finishName itemNo change).1 ≠ .error .itemNotFound) := by
  have hfirst := UpdateStock_not_found_first w filePath finishName itemNo change c hload
  refine ⟨hfirst.1, ?_, ?_⟩
  · intro f hf hname hitems
    obtain ⟨pre, post, hsplit⟩ := List.append_of_mem hf
    have hpre : ∀ g ∈ pre, g.Name ≠ finishName := by
      rw [hsplit] at hnodup
      rw [← hname]
      exact names_before_ne pre post f hnodup
    exact hfirst.2.1 pre f post hsplit hpre hname hitems
  · intro f hf hname hex
    obtain ⟨pre, post, hsplit⟩ := List.append_of_mem hf
    have hpre : ∀ g ∈ pre, g.Name ≠ finishName := by
      rw [hsplit] at hnodup
      rw [← hname]
      exact names_before_ne pre post f hnodup
    exact hfirst.2.2 pre f post hsplit hpre hname hex

/-- C9 (witness): on the Acme document there is no finish `Satin`, the finish `Gloss` has no
item `I-100`, and `Gloss` does hold `I-200`. -/
theorem UpdateStock_not_found_witness :
    (acmeCompany.Finishes.map Finish.Name).Nodup ∧
    UpdateStock acmeWorld acmePath "Satin" "I-100" 1 = (.error .itemNotFound, acmeWorld) ∧
    UpdateStock acmeWorld acmePath "Gloss" "I-100" 1 = (.error .itemNotFound, acmeWorld) ∧
    (UpdateStock acmeWorld acmePath "Gloss" "I-200" 1).1 ≠ .error .itemNotFound :=
  ⟨by decide,
   (UpdateStock_not_found acmeWorld acmePath "Satin" "I-100" 1 acmeCompany (by decide)
      (by decide)).1 (by decide),
   (UpdateStock_not_found acmeWorld acmePath "Gloss" "I-100" 1 acmeCompany (by decide)
      (by decide)).2.1
      { Name := "Gloss", Items := [{ ItemNo := "I-200", Quantity := 3, Alternates := [] }] }
      (by decide) (by decide) (by decide),
   (UpdateStock_not_found acmeWorld acmePath "Gloss" "I-200" 1 acmeCompany (by decide)
      (by decide)).2.2
      { Name := "Gloss", Items := [{ ItemNo := "I-200", Quantity := 3, Alternates := [] }] }
      (by decide) (by decide) (by decide)⟩

/-! ## Non-negative quantities -/

theorem updateItems_nonneg (items items' : List Item) (itemNo : String) (change : Int)
    (found : Bool) (h : updateItems items itemNo change = .ok (items', found))
    (hnn : ∀ x ∈ items, 0 ≤ x.Quantity) : ∀ x ∈ items', 0 ≤ x.Quantity := by
  induction items generalizing items' found with
  | nil =>
    simp [updateItems] at h
    rw [h.1]; simp
  | cons a t ih =>
    rw [updateItems] at h
    by_cases ha : a.ItemNo = itemNo
    · rw [if_pos ha] at h
      by_cases hneg : wrapInt (a.Quantity + change) < 0
      · simp [hneg] at h
      · simp [hneg] at h
        rw [← h.1]
        intro x hx
        rcases List.mem_cons.1 hx with rfl | hx
        · simp only; omega
        · exact hnn x (List.mem_cons_of_mem _ hx)
    · rw [if_neg ha] at h
      cases hrec : updateItems t itemNo change with
      | error e => rw [hrec] at h; simp at h
      | ok r =>
        obtain ⟨r1, r2⟩ := r
        rw [hrec] at h
        simp at h
        rw [← h.1]
        intro x hx
        rcases List.mem_cons.1 hx with rfl | hx
        · exact hnn x (List.mem_cons_self _ _)
        · exact ih r1 r2 hrec (fun y hy => hnn y (List.mem_cons_of_mem _ hy)) x hx

theorem updateFinishes_nonneg (finishes finishes' : List Finish) (finishName itemNo : String)
    (change : Int) (found : Bool)
    (h : updateFinishes finishes finishName itemNo change = .ok (finishes', found))
    (hnn : ∀ f ∈ finishes, ∀ x ∈ f.Items, 0 ≤ x.Quantity) :
    ∀ f ∈ finishes', ∀ x ∈ f.Items, 0 ≤ x.Quantity := by
  induction finishes generalizing finishes' found with
  | nil =>
    simp [updateFinishes] at h
    rw [h.1]; simp
  | cons a t ih =>
    rw [updateFinishes] at h
    by_cases ha : a.Name = finishName
    · rw [if_pos ha] at h
      cases hrec : updateItems a.Items itemNo change with
      | error e => rw [hrec] at h; simp at h
      | ok r =>
        obtain ⟨r1, r2⟩ := r
        rw [hrec] at h
        simp at h
        rw [← h.1]
        intro f hf
        rcases List.mem_cons.1 hf with rfl | hf
        · exact updateItems_nonneg a.Items r1 itemNo change r2 hrec
            (hnn a (List.mem_cons_self _ _))
        · exact hnn f (List.mem_cons_of_mem _ hf)
    · rw [if_neg ha] at h
      cases hrec : updateFinishes t finishName itemNo change with
      | error e => rw [hrec] at h; simp at h
      | ok r =>
        obtain ⟨r1, r2⟩ := r
        rw [hrec] at h
        simp at h
        rw [← h.1]
        intro f hf
        rcases List.mem_cons.1 hf with rfl | hf
        · exact hnn f (List.mem_cons_self _ _)
        · exact ih r1 r2 hrec (fun y hy => hnn y (List.mem_cons_of_mem _ hy)) f hf

theorem mem_mapSet (m : CompanyMap) (key : String) (v : Company) (kv : String × Company)
    (h : kv ∈ mapSet m key v) : kv ∈ m ∨ kv = (key, v) := by
  induction m with
  | nil => simp [mapSet] at h; exact Or.inr h
  | cons a t ih =>
    obtain ⟨k, v0⟩ := a
    rw [mapSet] at h
    by_cases hk : k = key
    · rw [if_pos hk] at h
      rcases List.mem_cons.1 h with h | h
      · right; rw [h, hk]
      · left; exact List.mem_cons_of_mem _ h
    · rw [if_neg hk] at h
      rcases List.mem_cons.1 h with h | h
      · left; rw [h]; exact List.mem_cons_self _ _
      · rcases ih h with h | h
        · left; exact List.mem_cons_of_mem _ h
        · right; exact h

theorem mem_of_mapGet (m : CompanyMap) (key : String) (c : Company)
    (h : mapGet m key = some c) : (key, c) ∈ m := by
  induction m with
  | nil => simp [mapGet] at h
  | cons a t ih =>
    obtain ⟨k, v0⟩ := a
    rw [mapGet] at h
    by_cases hk : k = key
    · rw [if_pos hk] at h
      simp at h
      rw [hk, h]; exact List.mem_cons_self _ _
    · rw [if_neg hk] at h
      exact List.mem_cons_of_mem _ (ih h)

theorem addItem_nonneg (finishes : List Finish) (finishName : String) (item : Item)
    (hnn : ∀ f ∈ finishes, ∀ x ∈ f.Items, 0 ≤ x.Quantity) (hitem : 0 ≤ item.Quantity) :
    ∀ f ∈ addItem finishes finishName item, ∀ x ∈ f.Items, 0 ≤ x.Quantity := by
  induction finishes with
  | nil =>
    intro f hf x hx
    simp [addItem] at hf
    rw [hf] at hx
    simp at hx
    rw [hx]; exact hitem
  | cons a t ih =>
    intro f hf x hx
    rw [addItem] at hf
    by_cases ha : a.Name = finishName
    · rw [if_pos ha] at hf
      rcases List.mem_cons.1 hf with h | h
      · rw [h] at hx
        simp at hx
        rcases hx with hx | hx
        · exact hnn a (List.mem_cons_self _ _) x hx
        · rw [hx]; exact hitem
      · exact hnn f (List.mem_cons_of_mem _ h) x hx
    · rw [if_neg ha] at hf
      rcases List.mem_cons.1 hf with h | h
      · rw [h] at hx; exact hnn a (List.mem_cons_self _ _) x hx
      · exact ih (fun g hg => hnn g (List.mem_cons_of_mem _ hg)) f h x hx

theorem rowQuantity_cons4 (a b c q : String) (rest : List String) :
    rowQuantity (a :: b :: c :: q :: rest) = Atoi q := by
  simp [rowQuantity]

theorem addRow_of_rowQuantity_none (m : CompanyMap) (row : List String)
    (h : rowQuantity row = none) : addRow m row = m := by
  match row with
  | [] => rfl
  | [_] => rfl
  | [_, _] => rfl
  | [_, _, _] => rfl
  | a :: b :: c :: q :: rest =>
    rw [rowQuantity_cons4] at h
    simp [addRow, h]

theorem addRow_nonneg (m : CompanyMap) (row : List String)
    (hm : ∀ kv ∈ m, kv.2.NonNeg) (hrow : ∀ n, rowQuantity row = some n → 0 ≤ n) :
    ∀ kv ∈ addRow m row, kv.2.NonNeg := by
  match row with
  | [] => exact hm
  | [_] => exact hm
  | [_, _] => exact hm
  | [_, _, _] => exact hm
  | a :: b :: c :: q :: rest =>
    rw [rowQuantity_cons4] at hrow
    cases hq : Atoi q with
    | none => simpa [addRow, hq] using hm
    | some n =>
      have hn : 0 ≤ n := hrow n hq
      simp only [addRow, hq]
      intro kv hkv
      rcases mem_mapSet _ _ _ _ hkv with h | h
      · exact hm kv h
      · rw [h]
        apply addItem_nonneg _ _ _ _ hn
        cases hg : mapGet m a with
        | none => simp
        | some comp => exact hm _ (mem_of_mapGet m a comp hg)

theorem foldl_addRow_nonneg (rows : List (List String)) (m : CompanyMap)
    (hm : ∀ kv ∈ m, kv.2.NonNeg)
    (hrows : ∀ row ∈ rows, ∀ n, rowQuantity row = some n → 0 ≤ n) :
    ∀ kv ∈ rows.foldl addRow m, kv.2.NonNeg := by
  induction rows generalizing m with
  | nil => exact hm
  | cons r t ih =>
    rw [List.foldl_cons]
    exact ih _ (addRow_nonneg m r hm (hrows r (List.mem_cons_self _ _)))
      (fun row hrow => hrows row (List.mem_cons_of_mem _ hrow))

/-- C3 (counterexample). Ingesting a sheet whose data row has quantity text `-5` succeeds
and produces an item with quantity `-5`. -/
theorem aggregate_keeps_negative_quantity :
    aggregate negativeRows =
      .ok [("Acme",
            { Name := "Acme",
              Finishes := [{ Name := "Matte",
                             Items := [{ ItemNo := "I-100", Quantity := -5,
                                         Alternates := [] }] }] })] ∧
    (-5 : Int) < 0 := by
  decide

/-- C3 (amended). A successful `UpdateStock` on a document whose items all have quantity
`≥ 0` stores a document whose items all have quantity `≥ 0`, and every ledger document the
call writes has that property; the row loop of `ProcessExcelFile` produces only items with
quantity `≥ 0` when no accepted data row carries a negative quantity. -/
theorem nonneg_kept_by_UpdateStock_and_nonneg_rows :
    (∀ (w : World) (filePath finishName itemNo : String) (change : Int) (c : Company),
      GetCompanyData w filePath = some c → c.NonNeg →
      (∀ p x, WriteEvent.ledger p x ∈ (UpdateStock w filePath finishName itemNo change).2.journal →
        WriteEvent.ledger p x ∈ w.journal ∨ x.NonNeg) ∧
      ((UpdateStock w filePath finishName itemNo change).1 = .ok () →
        ∃ c', GetCompanyData (UpdateStock w filePath finishName itemNo change).2 filePath =
            some c' ∧ c'.NonNeg)) ∧
    (∀ rows : List (List String),
      (∀ row ∈ rows.drop 1, ∀ n, rowQuantity row = some n → 0 ≤ n) →
      ∀ kv ∈ aggregateRows rows, kv.2.NonNeg) := by
  refine ⟨?_, ?_⟩
  · intro w filePath finishName itemNo change c hload hnn
    unfold UpdateStock
    rw [hload]
    simp only
    cases hrec : updateFinishes c.Finishes finishName itemNo change with
    | error e => exact ⟨fun p x h => Or.inl h, fun h => by simp at h⟩
    | ok r =>
      obtain ⟨fs, found⟩ := r
      have hfs := updateFinishes_nonneg c.Finishes fs finishName itemNo change found hrec hnn
      have hc' : Company.NonNeg { Name := c.Name, Finishes := fs } := hfs
      cases found with
      | false => exact ⟨fun p x h => Or.inl h, fun h => by simp at h⟩
      | true =>
        by_cases h1 : w.canWrite filePath = true
        · by_cases h2 : w.canWrite (originalPathOf filePath) = true
          · simp only [updateProcessedFile, updateOriginalFile, h1, h2, if_true]
            refine ⟨?_, fun _ => ⟨_, by simp [GetCompanyData], hc'⟩⟩
            intro p x hx
            simp at hx
            rcases hx with hx | hx
            · exact Or.inl hx
            · right; rw [hx.2]; exact hc'
          · simp only [updateProcessedFile, updateOriginalFile, h1, h2, if_true]
            refine ⟨?_, fun h => by simp at h⟩
            intro p x hx
            simp at hx
            rcases hx with hx | hx
            · exact Or.inl hx
            · right; rw [hx.2]; exact hc'
        · simp only [updateProcessedFile, h1]
          exact ⟨fun p x h => Or.inl h, fun h => by simp at h⟩
  · intro rows hrows
    exact foldl_addRow_nonneg (rows.drop 1) [] (by simp) hrows

/-- C3 (witness): taking 3 off `I-100` of the Acme document, and ingesting the Acme rows. -/
theorem nonneg_kept_by_UpdateStock_and_nonneg_rows_witness :
    (∃ c', GetCompanyData (UpdateStock acmeWorld acmePath "Matte" "I-100" (-3)).2 acmePath =
        some c' ∧ c'.NonNeg) ∧
    (∀ kv ∈ aggregateRows acmeRows, kv.2.NonNeg) :=
  ⟨(nonneg_kept_by_UpdateStock_and_nonneg_rows.1 acmeWorld acmePath "Matte" "I-100" (-3)
      acmeCompany (by decide)
      (by intro f hf x hx
          simp [acmeCompany] at hf
          rcases hf with rfl | rfl <;> simp at hx <;> rcases hx with rfl | rfl <;> simp)).2
      (by decide),
   nonneg_kept_by_UpdateStock_and_nonneg_rows.2 acmeRows
      (by intro row hrow n hn
          simp [acmeRows, acmeDataRows] at hrow
          rcases hrow with rfl | rfl | rfl <;> rw [rowQuantity_cons4] at hn <;>
            simp [Atoi, parseUnsigned, parseDigits, digitVal, maxInt] at hn <;> omega)⟩

/-! ## Ledger document names -/

theorem jsonFileName_data (b c : String) :
    (jsonFileName b c).data = b.data ++ '_' :: (c.data ++ ".json".data) := by
  simp [jsonFileName, String.data_append]

theorem append_sep_inj (sep : Char) (l1 l2 r1 r2 : List Char)
    (h1 : sep ∉ l1) (h2 : sep ∉ l2) (h : l1 ++ sep :: r1 = l2 ++ sep :: r2) :
    l1 = l2 ∧ r1 = r2 := by
  induction l1 generalizing l2 with
  | nil =>
    cases l2 with
    | nil => simpa using h
    | cons b t =>
      simp at h
      exact absurd (h.1 ▸ List.mem_cons_self _ _) h2
  | cons a t ih =>
    cases l2 with
    | nil =>
      simp at h
      exact absurd (h.1 ▸ List.mem_cons_self _ _) h1
    | cons b t2 =>
      simp at h
      have := ih t2 (fun hm => h1 (List.mem_cons_of_mem _ hm))
        (fun hm => h2 (List.mem_cons_of_mem _ hm)) h.2
      exact ⟨by rw [h.1, this.1], this.2⟩

theorem splitSlash_ne_nil (l : List Char) : splitSlash l ≠ [] := by
  cases l with
  | nil => simp [splitSlash]
  | cons c cs =>
    rw [splitSlash]
    by_cases hc : c = '/'
    · simp [hc]
    · rw [if_neg hc]
      cases splitSlash cs <;> simp

theorem splitSlash_plain (n : List Char) (h : '/' ∉ n) : splitSlash n = [n] := by
  induction n with
  | nil => rfl
  | cons c cs ih =>
    have hc : ¬ c = '/' := fun e => h (e ▸ List.mem_cons_self _ _)
    rw [splitSlash, if_neg hc, ih (fun hm => h (List.mem_cons_of_mem _ hm))]

theorem splitSlash_append_sep (p n : List Char) :
    splitSlash (p ++ '/' :: n) = splitSlash p ++ splitSlash n := by
  induction p with
  | nil => simp [splitSlash]
  | cons c cs ih =>
    rw [List.cons_append, splitSlash, splitSlash, ih]
    by_cases hc : c = '/'
    · simp [hc]
    · rw [if_neg hc, if_neg hc]
      cases hs : splitSlash cs with
      | nil => exact absurd hs (splitSlash_ne_nil cs)
      | cons h t => rfl

/-- A plain path element: not empty, not `.`, not `..`, and without a separator. -/
theorem cleanStep_plain (rooted : Bool) (kept : List (List Char)) (n : List Char)
    (h0 : n ≠ []) (h1 : n ≠ ['.']) (h2 : n ≠ ['.', '.']) :
    cleanStep rooted kept n = kept ++ [n] := by
  unfold cleanStep
  rw [if_neg (by simp [h0, h1]), if_neg h2]

theorem joinElems_snoc (kept : List (List Char)) :
    ∃ pfx : List Char, ∀ n : List Char, joinElems (kept ++ [n]) = pfx ++ n := by
  induction kept with
  | nil => exact ⟨[], fun n => rfl⟩
  | cons e rest ih =>
    obtain ⟨pfx, hp⟩ := ih
    refine ⟨e ++ '/' :: pfx, fun n => ?_⟩
    have hstep : joinElems (e :: rest ++ [n]) = e ++ '/' :: joinElems (rest ++ [n]) := by
      cases rest with
      | nil => rfl
      | cons f t => rfl
    rw [hstep, hp n, List.append_assoc]
    rfl

theorem cleanChars_plain_last (dir : List Char) :
    ∃ pfx : List Char, ∀ n : List Char, '/' ∉ n → n ≠ [] → n ≠ ['.'] → n ≠ ['.', '.'] →
      cleanChars (dir ++ '/' :: n) = pfx ++ n := by
  obtain ⟨pfx, hp⟩ := joinElems_snoc
    ((splitSlash dir).foldl (cleanStep ((dir ++ ['/']).head? == some '/')) [])
  refine ⟨(if (dir ++ ['/']).head? == some '/' then ['/'] else []) ++ pfx, ?_⟩
  intro n hs h0 h1 h2
  have hhead : (dir ++ '/' :: n).head? = (dir ++ ['/']).head? := by
    cases dir <;> rfl
  unfold cleanChars
  simp only [hhead]
  rw [splitSlash_append_sep, splitSlash_plain n hs, List.foldl_append, List.foldl_cons,
    List.foldl_nil, cleanStep_plain _ _ n h0 h1 h2, hp n]
  have hne : ((if (dir ++ ['/']).head? == some '/' then ['/'] else []) ++ (pfx ++ n)).isEmpty
      = false := by
    cases n with
    | nil => exact absurd rfl h0
    | cons a t => split_ifs <;> simp
  rw [hne]
  simp

theorem jsonPathOf_eq (dataDir : String) :
    ∃ dir : List Char, ∀ fileName companyName : String,
      jsonPathOf dataDir fileName companyName =
        String.mk (cleanChars (dir ++ '/' :: (jsonFileName fileName companyName).data)) := by
  by_cases hd : dataDir = ""
  · refine ⟨"processed".data, fun fileName companyName => ?_⟩
    subst hd
    unfold jsonPathOf Join Clean
    simp [List.dropWhile, String.intercalate, String.intercalate.go]
  · refine ⟨dataDir.data ++ '/' :: "processed".data, fun fileName companyName => ?_⟩
    have hne : (dataDir == "") = false := by simp [hd]
    unfold jsonPathOf Join Clean
    simp [List.dropWhile, hne, String.intercalate, String.intercalate.go]

theorem jsonFileName_plain (b c : String) (hb : '/' ∉ b.data) (hc : '/' ∉ c.data) :
    '/' ∉ (jsonFileName b c).data ∧ (jsonFileName b c).data ≠ [] ∧
    (jsonFileName b c).data ≠ ['.'] ∧ (jsonFileName b c).data ≠ ['.', '.'] := by
  have hmem : '_' ∈ (jsonFileName b c).data := by
    rw [jsonFileName_data]; simp
  refine ⟨?_, ?_, ?_, ?_⟩
  · rw [jsonFileName_data]
    simp [hb, hc]
  · intro h; rw [h] at hmem; simp at hmem
  · intro h; rw [h] at hmem; simp at hmem
  · intro h; rw [h] at hmem; simp at hmem

/-- For names without a separator, two document paths under one data root are equal only
if the document names are. -/
theorem jsonPathOf_inj_name (dataDir b1 b2 c1 c2 : String)
    (hb1 : '/' ∉ b1.data) (hc1 : '/' ∉ c1.data) (hb2 : '/' ∉ b2.data) (hc2 : '/' ∉ c2.data)
    (h : jsonPathOf dataDir b1 c1 = jsonPathOf dataDir b2 c2) :
    jsonFileName b1 c1 = jsonFileName b2 c2 := by
  obtain ⟨dir, hdir⟩ := jsonPathOf_eq dataDir
  obtain ⟨pfx, hpfx⟩ := cleanChars_plain_last dir
  obtain ⟨p1, p2, p3, p4⟩ := jsonFileName_plain b1 c1 hb1 hc1
  obtain ⟨q1, q2, q3, q4⟩ := jsonFileName_plain b2 c2 hb2 hc2
  rw [hdir, hdir, hpfx _ p1 p2 p3 p4, hpfx _ q1 q2 q3 q4] at h
  have hd := congrArg String.data h
  simp only at hd
  exact String.ext (List.append_cancel_left hd)

/-- C10 (counterexample). The batch `stock_2024` with company `Acme` and the batch `stock`
with company `2024_Acme` are different pairs with the same document name and, from the
uploads `stock_2024.xlsx` and `stock.xlsx`, the same document path; and for the batch `x`
the companies `z` and `y/../x_z` are written to the same document path. -/
theorem jsonFileName_collision :
    jsonFileName "stock_2024" "Acme" = jsonFileName "stock" "2024_Acme" ∧
    ("stock_2024", "Acme") ≠ ("stock", "2024_Acme") ∧
    batchName "stock_2024.xlsx" = "stock_2024" ∧ batchName "stock.xlsx" = "stock" ∧
    jsonPath acmeWorld "stock_2024.xlsx" "Acme" = jsonPath acmeWorld "stock.xlsx" "2024_Acme" ∧
    jsonPathOf "./data" "x" "z" = jsonPathOf "./data" "x" "y/../x_z" ∧
    ("x", "z") ≠ ("x", "y/../x_z") := by
  decide

/-- C10 (amended). For batch and company names without a path separator, the path of the
ledger document written by `saveProcessedData` under one data root determines the company
once the batch is fixed, determines the batch once the company is fixed, and determines the
pair `(batch, company)` among the pairs whose batch names contain no underscore; the same
holds of the document name `batch_company.json` itself, with or without separators. -/
theorem jsonPathOf_injective_restricted :
    (∀ dataDir b c1 c2 : String, '/' ∉ b.data → '/' ∉ c1.data → '/' ∉ c2.data →
      jsonPathOf dataDir b c1 = jsonPathOf dataDir b c2 → c1 = c2) ∧
    (∀ dataDir b1 b2 c : String, '/' ∉ b1.data → '/' ∉ b2.data → '/' ∉ c.data →
      jsonPathOf dataDir b1 c = jsonPathOf dataDir b2 c → b1 = b2) ∧
    (∀ dataDir b1 b2 c1 c2 : String, '_' ∉ b1.data → '_' ∉ b2.data →
      '/' ∉ b1.data → '/' ∉ c1.data → '/' ∉ b2.data → '/' ∉ c2.data →
      jsonPathOf dataDir b1 c1 = jsonPathOf dataDir b2 c2 → b1 = b2 ∧ c1 = c2) ∧
    (∀ b c1 c2 : String, jsonFileName b c1 = jsonFileName b c2 → c1 = c2) ∧
    (∀ b1 b2 c : String, jsonFileName b1 c = jsonFileName b2 c → b1 = b2) ∧
    (∀ b1 b2 c1 c2 : String, '_' ∉ b1.data → '_' ∉ b2.data →
      jsonFileName b1 c1 = jsonFileName b2 c2 → b1 = b2 ∧ c1 = c2) := by
  have hfix : ∀ b c1 c2 : String, jsonFileName b c1 = jsonFileName b c2 → c1 = c2 := by
    intro b c1 c2 h
    have hd := congrArg String.data h
    rw [jsonFileName_data, jsonFileName_data] at hd
    have h2 := List.append_cancel_left hd
    simp at h2
    exact String.ext h2
  have hfixc : ∀ b1 b2 c : String, jsonFileName b1 c = jsonFileName b2 c → b1 = b2 := by
    intro b1 b2 c h
    have hd := congrArg String.data h
    rw [jsonFileName_data, jsonFileName_data] at hd
    exact String.ext (List.append_cancel_right hd)
  have hpair : ∀ b1 b2 c1 c2 : String, '_' ∉ b1.data → '_' ∉ b2.data →
      jsonFileName b1 c1 = jsonFileName b2 c2 → b1 = b2 ∧ c1 = c2 := by
    intro b1 b2 c1 c2 h1 h2 h
    have hd := congrArg String.data h
    rw [jsonFileName_data, jsonFileName_data] at hd
    obtain ⟨hb, hr⟩ := append_sep_inj '_' _ _ _ _ h1 h2 hd
    exact ⟨String.ext hb, String.ext (List.append_cancel_right hr)⟩
  refine ⟨?_, ?_, ?_, hfix, hfixc, hpair⟩
  · intro dataDir b c1 c2 hb hc1 hc2 h
    exact hfix b c1 c2 (jsonPathOf_inj_name dataDir b b c1 c2 hb hc1 hb hc2 h)
  · intro dataDir b1 b2 c hb1 hb2 hc h
    exact hfixc b1 b2 c (jsonPathOf_inj_name dataDir b1 b2 c c hb1 hc hb2 hc h)
  · intro dataDir b1 b2 c1 c2 hu1 hu2 hb1 hc1 hb2 hc2 h
    exact hpair b1 b2 c1 c2 hu1 hu2 (jsonPathOf_inj_name dataDir b1 b2 c1 c2 hb1 hc1 hb2 hc2 h)

/-- C10 (witness): the path of the Acme document of the batch `stock`. -/
theorem jsonPathOf_injective_restricted_witness :
    '_' ∉ "stock".data ∧ '/' ∉ "stock".data ∧ '/' ∉ "Acme".data ∧
    jsonPathOf "./data" "stock" "Acme" = "data/processed/stock_Acme.json" ∧
    ("stock" = "stock" ∧ "Acme" = "Acme") :=
  ⟨by decide, by decide, by decide, by decide,
   jsonPathOf_injective_restricted.2.2.1 "./data" "stock" "stock" "Acme" "Acme"
     (by decide) (by decide) (by decide) (by decide) (by decide) (by decide) rfl⟩

/-! ## Queries -/

theorem containsChars_iff (l sub : List Char) :
    containsChars l sub = true ↔ ∃ pre post, l = pre ++ sub ++ post := by
  have key : containsChars l sub = true ↔ sub <:+: l := by
    induction l with
    | nil => simp [containsChars, List.isEmpty_iff]
    | cons a t ih =>
      rw [containsChars, Bool.or_eq_true, ih, List.isPrefixOf_iff_prefix,
        List.infix_cons_iff]
  rw [key]
  constructor
  · rintro ⟨s, t, h⟩; exact ⟨s, t, h.symm⟩
  · rintro ⟨s, t, h⟩; exact ⟨s, t, h.symm⟩

theorem lowersAscii_eq (lowerRune : Char → Char) (h : LowersAscii lowerRune) :
    lowerRune = fun c => if c.toNat < 128 then asciiLower c else lowerRune c := by
  funext c
  by_cases hc : c.toNat < 128
  · simp [hc, h c hc]
  · simp [hc]

/-- C8 (failing input). The query `Matte ` (one trailing blank) splits into the single token
`Matte`, which is a case-insensitive substring of the finish name `Matte` of the Acme
document; the one-token branch matches the lower-cased query text itself, blank included,
finds nothing and fails with no-matches, whereas the query `Matte` returns both items of
the finish. -/
theorem SearchItemsAdvanced_one_token_untrimmed (lowerRune : Char → Char)
    (hascii : LowersAscii lowerRune) :
    Fields "Matte " = ["Matte"] ∧
    IsCISubstring lowerRune "Matte" "Matte" ∧
    SearchItemsAdvanced lowerRune acmeWorld "Matte " = .error (.noMatches "Matte ") ∧
    SearchItemsAdvanced lowerRune acmeWorld "Matte" =
      .ok [{ Company := "Acme", Finish := "Matte", ItemNo := "I-100", Quantity := 10,
             FilePath := acmePath },
           { Company := "Acme", Finish := "Matte", ItemNo := "I-101", Quantity := 5,
             FilePath := acmePath }] := by
  refine ⟨by decide,
    ⟨[], "Matte".data, [], by simp, List.forall₂_same.2 (fun _ _ => rfl)⟩, ?_⟩
  rw [lowersAscii_eq lowerRune hascii]
  exact ⟨rfl, rfl⟩

/-- C8 (witness): the ASCII lower-casing map. -/
theorem SearchItemsAdvanced_one_token_untrimmed_witness :
    LowersAscii asciiLower ∧
    SearchItemsAdvanced asciiLower acmeWorld "Matte " = .error (.noMatches "Matte ") :=
  ⟨fun _ _ => rfl,
   (SearchItemsAdvanced_one_token_untrimmed asciiLower (fun _ _ => rfl)).2.2.1⟩

/-! ## Aggregation -/

theorem addRow_eq_addRecord (m : CompanyMap) (row : List String) :
    addRow m row = match parseRow row with
                   | none => m
                   | some r => addRecord m r := by
  match row with
  | [] => rfl
  | [_] => rfl
  | [_, _] => rfl
  | [_, _, _] => rfl
  | a :: b :: c :: q :: rest =>
    simp only [addRow, parseRow]
    cases Atoi q with
    | none => rfl
    | some n => rfl

theorem parseRow_isSome (row : List String) :
    (parseRow row).isSome = validRow row := by
  match row with
  | [] => rfl
  | [_] => rfl
  | [_, _] => rfl
  | [_, _, _] => rfl
  | a :: b :: c :: q :: rest =>
    simp only [validRow, rowQuantity_cons4, parseRow]
    cases Atoi q <;> rfl

theorem foldl_addRow_eq (rows : List (List String)) (m : CompanyMap) :
    rows.foldl addRow m = (rows.filterMap parseRow).foldl addRecord m := by
  induction rows generalizing m with
  | nil => rfl
  | cons r t ih =>
    rw [List.foldl_cons, ih, addRow_eq_addRecord]
    cases h : parseRow r with
    | none => simp [List.filterMap_cons, h]
    | some x => simp [List.filterMap_cons, h]

theorem foldl_addRow_filter (rows : List (List String)) (m : CompanyMap) :
    (rows.filter validRow).foldl addRow m = rows.foldl addRow m := by
  induction rows generalizing m with
  | nil => rfl
  | cons r t ih =>
    by_cases hv : validRow r = true
    · rw [List.filter_cons_of_pos hv, List.foldl_cons, List.foldl_cons, ih]
    · rw [List.filter_cons_of_neg hv, List.foldl_cons, ih]
      have hq : rowQuantity r = none := by
        unfold validRow at hv
        cases hr : rowQuantity r with
        | none => rfl
        | some n => rw [hr] at hv; simp at hv
      rw [addRow_of_rowQuantity_none m r hq]

theorem mem_firstAppearances (l : List String) (x : String) :
    x ∈ firstAppearances l ↔ x ∈ l := by
  induction l with
  | nil => simp [firstAppearances]
  | cons a t ih =>
    simp only [firstAppearances, List.mem_cons, List.mem_filter, ih, decide_eq_true_eq]
    by_cases hx : x = a
    · simp [hx]
    · simp [hx]

theorem nodup_firstAppearances (l : List String) : (firstAppearances l).Nodup := by
  induction l with
  | nil => simp [firstAppearances]
  | cons a t ih =>
    simp only [firstAppearances, List.nodup_cons, List.mem_filter, decide_eq_true_eq]
    exact ⟨fun h => h.2 rfl, ih.filter _⟩

theorem firstAppearances_snoc (l : List String) (x : String) :
    firstAppearances (l ++ [x]) =
      if x ∈ l then firstAppearances l else firstAppearances l ++ [x] := by
  induction l with
  | nil => simp [firstAppearances]
  | cons a t ih =>
    rw [List.cons_append, firstAppearances, ih]
    by_cases hxa : x = a
    · subst hxa
      by_cases hxt : x ∈ t
      · simp [firstAppearances, hxt]
      · simp [firstAppearances, hxt, List.filter_append]
    · by_cases hxt : x ∈ t
      · simp [firstAppearances, hxa, hxt]
      · simp [firstAppearances, hxa, hxt, List.filter_append]

theorem mapGet_map (keys : List String) (g : String → Company) (k : String) :
    mapGet (keys.map (fun c => (c, g c))) k = if k ∈ keys then some (g k) else none := by
  induction keys with
  | nil => rfl
  | cons a t ih =>
    rw [List.map_cons, mapGet, ih]
    by_cases hak : a = k
    · simp [hak]
    · have hka : ¬ k = a := fun h => hak h.symm
      simp [hak, hka]

theorem mapSet_map_mem (keys : List String) (hnd : keys.Nodup) (g : String → Company)
    (k : String) (v : Company) (hk : k ∈ keys) :
    mapSet (keys.map (fun c => (c, g c))) k v =
      keys.map (fun c => (c, if c = k then v else g c)) := by
  induction keys with
  | nil => simp at hk
  | cons a t ih =>
    rw [List.map_cons, mapSet, List.map_cons]
    rw [List.nodup_cons] at hnd
    by_cases hak : a = k
    · subst hak
      rw [if_pos rfl, if_pos rfl]
      congr 1
      apply List.map_congr_left
      intro c hc
      have hca : ¬ c = a := fun h => hnd.1 (h ▸ hc)
      rw [if_neg hca]
    · rw [if_neg hak, if_neg hak]
      have hkt : k ∈ t := by
        rcases List.mem_cons.1 hk with h | h
        · exact absurd h.symm hak
        · exact h
      rw [ih hnd.2 hkt]

theorem mapSet_map_not_mem (keys : List String) (g : String → Company)
    (k : String) (v : Company) (hk : k ∉ keys) :
    mapSet (keys.map (fun c => (c, g c))) k v = keys.map (fun c => (c, g c)) ++ [(k, v)] := by
  induction keys with
  | nil => rfl
  | cons a t ih =>
    have hak : ¬ a = k := fun h => hk (h ▸ List.mem_cons_self _ _)
    have hkt : k ∉ t := fun h => hk (List.mem_cons_of_mem _ h)
    rw [List.map_cons, mapSet, if_neg hak, ih hkt]
    rfl

theorem addItem_map_mem (names : List String) (hnd : names.Nodup) (h : String → List Item)
    (n : String) (it : Item) (hn : n ∈ names) :
    addItem (names.map (fun f => Finish.mk f (h f))) n it =
      names.map (fun f => Finish.mk f (if f = n then h f ++ [it] else h f)) := by
  induction names with
  | nil => simp at hn
  | cons a t ih =>
    rw [List.map_cons, addItem, List.map_cons]
    rw [List.nodup_cons] at hnd
    by_cases han : a = n
    · subst han
      rw [if_pos rfl, if_pos rfl]
      congr 1
      apply List.map_congr_left
      intro c hc
      have hca : ¬ c = a := fun h => hnd.1 (h ▸ hc)
      rw [if_neg hca]
    · rw [if_neg han, if_neg han]
      have hnt : n ∈ t := by
        rcases List.mem_cons.1 hn with h | h
        · exact absurd h.symm han
        · exact h
      rw [ih hnd.2 hnt]

theorem addItem_map_not_mem (names : List String) (h : String → List Item)
    (n : String) (it : Item) (hn : n ∉ names) :
    addItem (names.map (fun f => Finish.mk f (h f))) n it =
      names.map (fun f => Finish.mk f (h f)) ++ [Finish.mk n [it]] := by
  induction names with
  | nil => rfl
  | cons a t ih =>
    have han : ¬ a = n := fun h => hn (h ▸ List.mem_cons_self _ _)
    have hnt : n ∉ t := fun h => hn (List.mem_cons_of_mem _ h)
    rw [List.map_cons, addItem, if_neg han, ih hnt]
    rfl

theorem itemsOf_snoc (recs : List Record) (r : Record) (c f : String) :
    itemsOf (recs ++ [r]) c f =
      itemsOf recs c f ++ if r.company = c ∧ r.finish = f then [r.toItem] else [] := by
  unfold itemsOf
  rw [List.filter_append, List.map_append]
  by_cases h : r.company = c ∧ r.finish = f
  · simp [h]
  · simp [h]

theorem finishNamesOf_snoc (recs : List Record) (r : Record) (c : String) :
    finishNamesOf (recs ++ [r]) c =
      if r.company = c then
        (if r.finish ∈ finishNamesOf recs c then finishNamesOf recs c
         else finishNamesOf recs c ++ [r.finish])
      else finishNamesOf recs c := by
  unfold finishNamesOf
  rw [List.filter_append, List.map_append]
  by_cases h : r.company = c
  · simp only [h, decide_True, List.filter_cons_of_pos, List.filter_nil, List.map_cons,
      List.map_nil, if_true]
    rw [firstAppearances_snoc]
    simp only [mem_firstAppearances]
  · simp [h]

theorem itemsOf_eq_nil (recs : List Record) (c f : String)
    (h : f ∉ finishNamesOf recs c) : itemsOf recs c f = [] := by
  unfold finishNamesOf at h
  rw [mem_firstAppearances] at h
  unfold itemsOf
  rw [List.map_eq_nil_iff, List.filter_eq_nil_iff]
  intro r hr hcf
  simp only [decide_eq_true_eq] at hcf
  apply h
  rw [List.mem_map]
  exact ⟨r, List.mem_filter.2 ⟨hr, by simp [hcf.1]⟩, hcf.2⟩

theorem nodup_finishNamesOf (recs : List Record) (c : String) :
    (finishNamesOf recs c).Nodup :=
  nodup_firstAppearances _

theorem nodup_companyNamesOf (recs : List Record) : (companyNamesOf recs).Nodup :=
  nodup_firstAppearances _

theorem finishesOf_snoc (recs : List Record) (r : Record) (k : String) :
    finishesOf (recs ++ [r]) k =
      if k = r.company then addItem (finishesOf recs k) r.finish r.toItem
      else finishesOf recs k := by
  by_cases hk : k = r.company
  · subst hk
    rw [if_pos rfl]
    unfold finishesOf
    rw [finishNamesOf_snoc, if_pos rfl]
    by_cases hf : r.finish ∈ finishNamesOf recs r.company
    · rw [if_pos hf, addItem_map_mem (finishNamesOf recs r.company)
        (nodup_finishNamesOf recs r.company) (fun f => itemsOf recs r.company f) r.finish
        r.toItem hf]
      apply List.map_congr_left
      intro f _
      rw [itemsOf_snoc]
      by_cases hfe : f = r.finish
      · subst hfe; simp
      · have : ¬ r.finish = f := fun h => hfe h.symm
        simp [hfe, this]
    · rw [if_neg hf, addItem_map_not_mem (finishNamesOf recs r.company)
        (fun f => itemsOf recs r.company f) r.finish r.toItem hf, List.map_append]
      congr 1
      · apply List.map_congr_left
        intro f hfm
        rw [itemsOf_snoc]
        have : ¬ r.finish = f := fun h => hf (h ▸ hfm)
        simp [this]
      · simp [itemsOf_snoc, itemsOf_eq_nil recs r.company r.finish hf]
  · rw [if_neg hk]
    have hk' : ¬ r.company = k := fun h => hk h.symm
    unfold finishesOf
    rw [finishNamesOf_snoc, if_neg hk']
    apply List.map_congr_left
    intro f _
    rw [itemsOf_snoc]
    simp [hk']

theorem finishesOf_eq_nil (recs : List Record) (c : String)
    (h : c ∉ companyNamesOf recs) : finishesOf recs c = [] := by
  unfold companyNamesOf at h
  rw [mem_firstAppearances] at h
  unfold finishesOf finishNamesOf
  have : recs.filter (fun r => decide (r.company = c)) = [] := by
    rw [List.filter_eq_nil_iff]
    intro r hr hc
    simp only [decide_eq_true_eq] at hc
    exact h (List.mem_map.2 ⟨r, hr, hc⟩)
  rw [this]
  rfl

theorem addRecord_expectedMap (recs : List Record) (r : Record) :
    addRecord (expectedMap recs) r = expectedMap (recs ++ [r]) := by
  unfold addRecord expectedMap
  rw [mapGet_map]
  have hval : ((if r.company ∈ companyNamesOf recs then
        some (Company.mk r.company (finishesOf recs r.company)) else none).getD
        { Name := r.company, Finishes := [] }) =
      Company.mk r.company (finishesOf recs r.company) := by
    by_cases hc : r.company ∈ companyNamesOf recs
    · simp [hc]
    · simp [hc, finishesOf_eq_nil recs r.company hc]
  simp only [hval]
  have hnames : companyNamesOf (recs ++ [r]) =
      if r.company ∈ companyNamesOf recs then companyNamesOf recs
      else companyNamesOf recs ++ [r.company] := by
    unfold companyNamesOf
    rw [List.map_append, List.map_cons, List.map_nil, firstAppearances_snoc]
    simp only [mem_firstAppearances]
  rw [hnames]
  by_cases hc : r.company ∈ companyNamesOf recs
  · rw [if_pos hc, mapSet_map_mem (companyNamesOf recs) (nodup_companyNamesOf recs)
      (fun c => Company.mk c (finishesOf recs c)) r.company _ hc]
    apply List.map_congr_left
    intro k _
    rw [finishesOf_snoc]
    by_cases hk : k = r.company
    · subst hk; simp
    · simp [hk]
  · rw [if_neg hc, mapSet_map_not_mem (companyNamesOf recs)
      (fun c => Company.mk c (finishesOf recs c)) r.company _ hc, List.map_append]
    congr 1
    · apply List.map_congr_left
      intro k hkm
      rw [finishesOf_snoc]
      have : ¬ k = r.company := fun h => hc (h ▸ hkm)
      simp [this]
    · simp [finishesOf_snoc]

theorem foldl_addRecord_expectedMap (recs pre : List Record) :
    recs.foldl addRecord (expectedMap pre) = expectedMap (pre ++ recs) := by
  induction recs generalizing pre with
  | nil => simp
  | cons r t ih =>
    rw [List.foldl_cons, addRecord_expectedMap, ih]
    simp

theorem aggregateRows_eq_expectedMap (rows : List (List String)) :
    aggregateRows rows = expectedMap (validRecords rows) := by
  unfold aggregateRows validRecords
  rw [foldl_addRow_eq]
  have := foldl_addRecord_expectedMap ((rows.drop 1).filterMap parseRow) []
  simpa [expectedMap, companyNamesOf, firstAppearances] using this

theorem aggregate_of_two_rows (rows : List (List String)) (hlen : 2 ≤ rows.length) :
    aggregate rows = .ok (aggregateRows rows) := by
  unfold aggregate
  rw [if_neg (by omega)]

theorem mem_expectedMap (recs : List Record) (c : String) (company : Company) :
    (c, company) ∈ expectedMap recs ↔
      c ∈ companyNamesOf recs ∧ company = { Name := c, Finishes := finishesOf recs c } := by
  unfold expectedMap
  rw [List.mem_map]
  constructor
  · rintro ⟨k, hk, heq⟩
    simp only [Prod.mk.injEq] at heq
    obtain ⟨h1, h2⟩ := heq
    subst h1
    exact ⟨hk, h2.symm⟩
  · rintro ⟨hc, hcomp⟩
    exact ⟨c, hc, by rw [hcomp]⟩

/-- The finishes of every company built by the row loop have distinct names. -/
theorem aggregateRows_finish_names_nodup (rows : List (List String)) :
    ∀ kv ∈ aggregateRows rows, (kv.2.Finishes.map Finish.Name).Nodup := by
  intro kv hkv
  rw [aggregateRows_eq_expectedMap] at hkv
  obtain ⟨_, hcomp⟩ := (mem_expectedMap (validRecords rows) kv.1 kv.2).1 hkv
  rw [hcomp]
  show ((finishesOf (validRecords rows) kv.1).map Finish.Name).Nodup
  unfold finishesOf
  rw [List.map_map]
  have : (Finish.Name ∘ fun f => Finish.mk f (itemsOf (validRecords rows) kv.1 f)) = id := rfl
  rw [this, List.map_id]
  exact nodup_finishNamesOf _ _

/-- C4. For a sheet with at least two rows the aggregation succeeds and the first row
contributes nothing; the map holds exactly one company per distinct company name of the
valid data rows, stored under that name; the finishes of a company have pairwise distinct
names, listed in order of first appearance among the rows of that company; and the items of
a finish are the (item number, quantity, no alternates) of the valid rows with that company
and finish, one per row and in row order. The Acme rows give the single company Acme with
Matte (I-100 qty 10, I-101 qty 5), then Gloss (I-200 qty 3). -/
theorem aggregate_groups_by_company_and_finish (rows : List (List String))
    (hlen : 2 ≤ rows.length) :
    aggregate rows = .ok (expectedMap (validRecords rows)) ∧
    (∀ other : List String, aggregate (other :: rows.drop 1) = aggregate rows) ∧
    ((expectedMap (validRecords rows)).map Prod.fst).Nodup ∧
    (∀ c, (∃ company, (c, company) ∈ expectedMap (validRecords rows)) ↔
      ∃ r ∈ validRecords rows, r.company = c) ∧
    (∀ c company, (c, company) ∈ expectedMap (validRecords rows) →
      mapGet (expectedMap (validRecords rows)) c = some company ∧
      company.Name = c ∧
      (company.Finishes.map Finish.Name).Nodup ∧
      company.Finishes.map Finish.Name =
        firstAppearances
          (((validRecords rows).filter (fun r => decide (r.company = c))).map Record.finish) ∧
      ∀ f ∈ company.Finishes,
        f.Items =
          ((validRecords rows).filter
            (fun r => decide (r.company = c ∧ r.finish = f.Name))).map
            (fun r => { ItemNo := r.itemNo, Quantity := r.quantity, Alternates := [] })) ∧
    aggregate acmeRows = .ok [("Acme", acmeCompany)] := by
  have hnames : ∀ recs c, (finishesOf recs c).map Finish.Name = finishNamesOf recs c := by
    intro recs c
    unfold finishesOf
    rw [List.map_map]
    exact List.map_id'' (fun _ => rfl) _
  refine ⟨?_, ?_, ?_, ?_, ?_, by decide⟩
  · rw [aggregate_of_two_rows rows hlen, aggregateRows_eq_expectedMap]
  · intro other
    have h2 : 2 ≤ (other :: rows.drop 1).length := by
      simp only [List.length_cons, List.length_drop]; omega
    rw [aggregate_of_two_rows rows hlen, aggregate_of_two_rows _ h2]
    rfl
  · unfold expectedMap
    rw [List.map_map]
    have : (Prod.fst ∘ fun c => (c, Company.mk c (finishesOf (validRecords rows) c))) = id := rfl
    rw [this, List.map_id]
    exact nodup_companyNamesOf _
  · intro c
    constructor
    · rintro ⟨company, hmem⟩
      have hc := ((mem_expectedMap _ _ _).1 hmem).1
      unfold companyNamesOf at hc
      rw [mem_firstAppearances, List.mem_map] at hc
      exact hc
    · rintro ⟨r, hr, hrc⟩
      refine ⟨_, (mem_expectedMap _ c _).2 ⟨?_, rfl⟩⟩
      unfold companyNamesOf
      rw [mem_firstAppearances, List.mem_map]
      exact ⟨r, hr, hrc⟩
  · intro c company hmem
    obtain ⟨hc, hcomp⟩ := (mem_expectedMap _ _ _).1 hmem
    subst hcomp
    refine ⟨?_, rfl, ?_, ?_, ?_⟩
    · unfold expectedMap
      rw [mapGet_map (companyNamesOf (validRecords rows))
        (fun c => Company.mk c (finishesOf (validRecords rows) c)) c, if_pos hc]
    · show ((finishesOf (validRecords rows) c).map Finish.Name).Nodup
      rw [hnames]
      exact nodup_finishNamesOf _ _
    · exact hnames _ _
    · intro f hf
      change f ∈ finishesOf (validRecords rows) c at hf
      unfold finishesOf at hf
      rw [List.mem_map] at hf
      obtain ⟨n, _, hfn⟩ := hf
      rw [← hfn]
      rfl

/-- C4 (witness): the Acme rows. -/
theorem aggregate_groups_by_company_and_finish_witness :
    2 ≤ acmeRows.length ∧ aggregate acmeRows = .ok (expectedMap (validRecords acmeRows)) ∧
    expectedMap (validRecords acmeRows) = [("Acme", acmeCompany)] :=
  ⟨by decide, (aggregate_groups_by_company_and_finish acmeRows (by decide)).1, by decide⟩

theorem validRow_eq_false_iff (row : List String) :
    validRow row = false ↔
      (row.length < 4 ∨ ∃ q, row.get? 3 = some q ∧ Atoi q = none) := by
  match row with
  | [] => simp [validRow, rowQuantity]
  | [_] => simp [validRow, rowQuantity]
  | [_, _] => simp [validRow, rowQuantity]
  | [_, _, _] => simp [validRow, rowQuantity]
  | a :: b :: c :: q :: rest =>
    simp only [validRow, rowQuantity_cons4]
    cases hq : Atoi q with
    | none => simp [hq]
    | some n => simp [hq]

theorem cleanRows_drop (rows : List (List String)) :
    (cleanRows rows).drop 1 = (rows.drop 1).filter validRow := by
  cases rows with
  | nil => rfl
  | cons h t => simp [cleanRows]

theorem aggregateRows_cleanRows (rows : List (List String)) :
    aggregateRows (cleanRows rows) = aggregateRows rows := by
  unfold aggregateRows
  rw [cleanRows_drop, foldl_addRow_filter]

/-- C5 (counterexample). On the header followed by one malformed row the aggregation
succeeds with the empty company map, while the sheet without its malformed row is the
header alone and its aggregation fails with the no-data error. -/
theorem aggregate_cleaned_sheet_can_fail :
    aggregate [headerRow, malformedRow] = .ok [] ∧
    cleanRows [headerRow, malformedRow] = [headerRow] ∧
    aggregate (cleanRows [headerRow, malformedRow]) = .error .noDataRows := by
  decide

/-- C5 (amended). For a sheet with at least two rows, the aggregation succeeds and yields
the company map that the row loop builds from the sheet without its malformed data rows
(fewer than four fields, or a fourth field that is not an integer); aggregating the cleaned
sheet gives the same result when it still has two rows, and fails with the no-data error
when it does not; a malformed row leaves the company map as it is; and the row
`[Acme, Matte, I-102, abc]` inserted anywhere among the Acme data rows does not change the
result. -/
theorem aggregate_drops_malformed_rows (rows : List (List String))
    (hlen : 2 ≤ rows.length) :
    aggregate rows = .ok (aggregateRows (cleanRows rows)) ∧
    aggregateRows rows = aggregateRows (cleanRows rows) ∧
    (2 ≤ (cleanRows rows).length → aggregate (cleanRows rows) = aggregate rows) ∧
    ((cleanRows rows).length < 2 → aggregate (cleanRows rows) = .error .noDataRows) ∧
    (∀ row, validRow row = false ↔
      (row.length < 4 ∨ ∃ q, row.get? 3 = some q ∧ Atoi q = none)) ∧
    (∀ (m : CompanyMap) (row : List String), validRow row = false → addRow m row = m) ∧
    validRow malformedRow = false ∧
    (∀ pre post : List (List String), acmeDataRows = pre ++ post →
      aggregate (headerRow :: (pre ++ malformedRow :: post)) = aggregate acmeRows) := by
  refine ⟨?_, ?_, ?_, ?_, validRow_eq_false_iff, ?_, by decide, ?_⟩
  · rw [aggregate_of_two_rows rows hlen, aggregateRows_cleanRows]
  · rw [aggregateRows_cleanRows]
  · intro h2
    rw [aggregate_of_two_rows rows hlen, aggregate_of_two_rows _ h2, aggregateRows_cleanRows]
  · intro h2
    unfold aggregate
    rw [if_pos h2]
  · intro m row hv
    apply addRow_of_rowQuantity_none
    unfold validRow at hv
    cases hr : rowQuantity row with
    | none => rfl
    | some n => rw [hr] at hv; simp at hv
  · intro pre post hsplit
    have h1 : 2 ≤ (headerRow :: (pre ++ malformedRow :: post)).length := by
      simp only [List.length_cons, List.length_append]; omega
    have h2 : 2 ≤ acmeRows.length := by decide
    rw [aggregate_of_two_rows _ h1, aggregate_of_two_rows _ h2,
      ← aggregateRows_cleanRows (headerRow :: (pre ++ malformedRow :: post)),
      ← aggregateRows_cleanRows acmeRows]
    have hbad : validRow malformedRow = false := by decide
    have : cleanRows (headerRow :: (pre ++ malformedRow :: post)) = cleanRows acmeRows := by
      simp only [cleanRows, acmeRows, hsplit, List.take_succ_cons, List.take_zero,
        List.drop_succ_cons, List.drop_zero, List.filter_append, List.filter_cons, hbad]
      simp
    rw [this]

/-- C5 (witness): the Acme rows with the malformed row after the second data row. -/
theorem aggregate_drops_malformed_rows_witness :
    2 ≤ (headerRow :: (acmeDataRows.take 2 ++ malformedRow :: acmeDataRows.drop 2)).length ∧
    aggregate (headerRow :: (acmeDataRows.take 2 ++ malformedRow :: acmeDataRows.drop 2)) =
      .ok (aggregateRows
        (cleanRows (headerRow :: (acmeDataRows.take 2 ++ malformedRow :: acmeDataRows.drop 2)))) ∧
    cleanRows (headerRow :: (acmeDataRows.take 2 ++ malformedRow :: acmeDataRows.drop 2)) =
      acmeRows :=
  ⟨by decide,
   (aggregate_drops_malformed_rows
      (headerRow :: (acmeDataRows.take 2 ++ malformedRow :: acmeDataRows.drop 2))
      (by decide)).1,
   by decide⟩

end StockTally
